import Mathlib

/-
Verification of the copy-number (CN) core of `generate_input.py`
(LGenIC): interval consolidation (`SampleCNVs.merge_overlapping_cnvs`,
`SampleCNVs.add`), ploidy normalization (`SampleCNVs.adjust_ploidy`),
arm/chromosome event classification (`SampleCNVs.overlap_chrom`), and
gene-overlap annotation (`get_overlap_genes`).

Embedding conventions:
- Python ints are `Int`; Python dicts are insertion-ordered association
  lists (`dictGet` / `dictSet` mirror `d[k]` reads and writes).
- Python floats are modelled as exact rationals; the float comparison
  `a / b > thr` (with `b` a positive integer length) is `divGT`, and
  Python's `round` (banker's rounding) on the exact quotient `num/den`
  is `pyRoundRat`.
- Python exceptions are `Except String` / an `Option String` error slot;
  the unbounded recursion of `merge_overlapping_cnvs` is given explicit
  gas, `none` meaning the gas bound was reached (all functions are
  structurally recursive so that the kernel can evaluate them).
- `str.replace` / `str.startswith` are `pyReplace` / `pyStartsWith`
  (same left-to-right non-overlapping replacement semantics).
- `list.insert(i, x)` / `list.pop(i)` are `pyInsertAt` / `pyPopAt`.
-/

/-- Python `list.insert(i, x)` (for the in-range indices used by the code). -/
def pyInsertAt (l : List Int) (i : Nat) (x : Int) : List Int :=
  l.take i ++ x :: l.drop i

/-- Python `list.pop(i)` discarding the returned element (in-range usage). -/
def pyPopAt (l : List Int) (i : Nat) : List Int :=
  l.take i ++ l.drop (i + 1)

/-- Python `s.startswith(p)`. -/
def pyStartsWith (s p : String) : Bool := p.data.isPrefixOf s.data

/-- Left-to-right non-overlapping replacement on character lists; the gas
is the length of the subject string, enough for the whole scan. -/
def replaceAux (pat rep : List Char) : Nat → List Char → List Char
  | _, [] => []
  | 0, l => l
  | gas + 1, c :: rest =>
    if pat.isPrefixOf (c :: rest) then
      rep ++ replaceAux pat rep gas (rest.drop (pat.length - 1))
    else
      c :: replaceAux pat rep gas rest

/-- Python `s.replace(pat, rep)` for a non-empty pattern (the code only
ever replaces the pattern "chr"). -/
def pyReplace (s pat rep : String) : String :=
  if pat.isEmpty then s else ⟨replaceAux pat.data rep.data s.data.length s.data⟩

/-- Python `bisect.bisect_right` main loop (`while lo < hi`); the gas is
`hi - lo` at the first call, enough for every iteration. -/
def bisectRightGo (a : List Int) (x : Int) : Nat → Nat → Nat → Nat
  | 0, lo, _ => lo
  | gas + 1, lo, hi =>
    if lo < hi then
      let mid := (lo + hi) / 2
      if x < a.getD mid 0 then bisectRightGo a x gas lo mid
      else bisectRightGo a x gas (mid + 1) hi
    else lo

/-- Python `bisect.bisect_left` main loop. -/
def bisectLeftGo (a : List Int) (x : Int) : Nat → Nat → Nat → Nat
  | 0, lo, _ => lo
  | gas + 1, lo, hi =>
    if lo < hi then
      let mid := (lo + hi) / 2
      if a.getD mid 0 < x then bisectLeftGo a x gas (mid + 1) hi
      else bisectLeftGo a x gas lo mid
    else lo

/-- Python `bisect.bisect_right(a, x)`. -/
def bisect_right (a : List Int) (x : Int) : Nat :=
  bisectRightGo a x a.length 0 a.length

/-- Python `bisect.bisect_left(a, x)`. -/
def bisect_left (a : List Int) (x : Int) : Nat :=
  bisectLeftGo a x a.length 0 a.length

/-- Exact-rational model of the Python float comparison `a / b > thr`,
where `a` is an integer overlap sum and `b` a positive integer length
(`mkRat a b.toNat` is the exact quotient `a / b` when `b > 0`). -/
def divGT (a b : Int) (thr : ℚ) : Prop := thr < mkRat a b.toNat

instance (a b : Int) (thr : ℚ) : Decidable (divGT a b thr) := by
  unfold divGT; infer_instance

/-- Python `round(num / den)` on the exact quotient, for `den > 0`:
round-half-to-even (banker's rounding). -/
def pyRoundRat (num den : Int) : Int :=
  let f := Int.fdiv num den
  let r := num - f * den
  if 2 * r < den then f
  else if 2 * r > den then f + 1
  else if f % 2 = 0 then f else f + 1

/-- Python dict read `d.get(k)`; `d[k]` is this plus a `KeyError` branch. -/
def dictGet {α : Type} (d : List (String × α)) (k : String) : Option α :=
  match d with
  | [] => none
  | (k', v) :: rest => if k' = k then some v else dictGet rest k

/-- Python dict write `d[k] = v` (insertion-ordered: overwrite in place,
append fresh keys at the end). -/
def dictSet {α : Type} (d : List (String × α)) (k : String) (v : α) : List (String × α) :=
  match d with
  | [] => [(k, v)]
  | (k', v') :: rest => if k' = k then (k, v) :: rest else (k', v') :: dictSet rest k v

/-- Python truthiness of an `Option Bool` (`None` is falsy). -/
def optTrue : Option Bool → Bool
  | some true => true
  | _ => false

/-- A simple class storing the chromosome, start, end, and name of a gene
(`generate_input.py`, class `Gene`; `end` is a Lean keyword, hence `end_`). -/
structure Gene where
  name : String
  chrom : String
  start : Int
  end_ : Int
deriving Repr, DecidableEq

/-- A simple class storing the genomic range of each chromosome and the
coordinates of the p and q arms (`generate_input.py`, class `Chromosome`).
Unset coordinates are `None`; the lengths start out as `0.0` and are
always integer-valued (`end - start`, or the placeholder `1`). -/
structure Chromosome where
  chrom : String
  p_start : Option Int := none
  p_end : Option Int := none
  q_start : Option Int := none
  q_end : Option Int := none
  q_length : Int := 0
  p_length : Int := 0
deriving Repr, DecidableEq

/-- Per-sample CNV store (`generate_input.py`, class `SampleCNVs`): four
chromosome-keyed dicts, the chr-prefix flag and the cached ploidy. -/
structure SampleCNVs where
  starts : List (String × List Int)
  ends : List (String × List Int)
  cn_states : List (String × List Int)
  len_seg : List (String × Nat)
  is_chr_prefixed : Option Bool
  ploidy : Option Int
deriving Repr, DecidableEq

/-- `SampleCNVs.__init__`. -/
def SampleCNVs.init : SampleCNVs :=
  { starts := [], ends := [], cn_states := [], len_seg := [],
    is_chr_prefixed := none, ploidy := none }

/-- `SampleCNVs.merge_overlapping_cnvs`, with explicit recursion gas
(`none` = gas exhausted).  The local closures `reduce_new_event` and
`reduce_old_event` of the source are the two `let` blocks. -/
def merge_overlapping_cnvs : Nat → List Int → List Int → List Int →
    Int → Int → Int → Option (List Int × List Int × List Int)
  | 0, _, _, _, _, _, _ => none
  | gas + 1, existStarts, existEnds, existCNs, newStart, newEnd, newCN =>
    -- First, does this new segment actually overlap anything?
    let start_bisect := bisect_right existEnds newStart
    let end_bisect := bisect_left existStarts newEnd
    if start_bisect = end_bisect then
      -- There are no overlaps. Simply add this new event in.
      some (pyInsertAt existStarts start_bisect newStart,
            pyInsertAt existEnds start_bisect newEnd,
            pyInsertAt existCNs start_bisect newCN)
    else
      -- Grab the first overlap
      let oldStart := existStarts.getD start_bisect 0
      let oldEnd := existEnds.getD start_bisect 0
      let oldCN := existCNs.getD start_bisect 0
      -- reduce_new_event: truncate the newer event around the older one,
      -- re-inserting the up-to-two remaining pieces with the new state
      let reduce_new_event :=
        match (if newStart < oldStart then
                 merge_overlapping_cnvs gas existStarts existEnds existCNs newStart oldStart newCN
               else some (existStarts, existEnds, existCNs)) with
        | none => none
        | some (s1, e1, c1) =>
          if oldEnd < newEnd then merge_overlapping_cnvs gas s1 e1 c1 oldEnd newEnd newCN
          else some (s1, e1, c1)
      -- reduce_old_event: delete the older event, re-insert its up-to-two
      -- remaining pieces with the old state, then re-insert the new event
      let starts1 := pyPopAt existStarts start_bisect
      let ends1 := pyPopAt existEnds start_bisect
      let cns1 := pyPopAt existCNs start_bisect
      let starts2 := if newEnd < oldEnd then pyInsertAt starts1 start_bisect newEnd else starts1
      let ends2 := if newEnd < oldEnd then pyInsertAt ends1 start_bisect oldEnd else ends1
      let cns2 := if newEnd < oldEnd then pyInsertAt cns1 start_bisect oldCN else cns1
      let starts3 := if oldStart < newStart then pyInsertAt starts2 start_bisect oldStart else starts2
      let ends3 := if oldStart < newStart then pyInsertAt ends2 start_bisect newStart else ends2
      let cns3 := if oldStart < newStart then pyInsertAt cns2 start_bisect oldCN else cns2
      let reduce_old_event := merge_overlapping_cnvs gas starts3 ends3 cns3 newStart newEnd newCN
      if oldCN = newCN then
        -- Same CN state: merge into the union span and re-insert
        let outStart := if oldStart < newStart then oldStart else newStart
        let outEnd := if oldEnd > newEnd then oldEnd else newEnd
        merge_overlapping_cnvs gas starts1 ends1 cns1 outStart outEnd newCN
      else if newCN ≤ 2 ∧ oldCN ≤ 2 then  -- Deletion
        if oldCN < newCN then reduce_new_event else reduce_old_event
      else if newCN ≥ 2 ∧ oldCN ≥ 2 then  -- Gain/Amp
        if oldCN > newCN then reduce_new_event else reduce_old_event
      else
        -- Mixed: keep both, subset the larger event by the smaller one
        if oldEnd - oldStart < newEnd - newStart then reduce_new_event else reduce_old_event

/-- `SampleCNVs.add`: `.error` models the `TypeError` raised on negative
length, `.ok none` means the merge ran out of gas. -/
def SampleCNVs.add (self : SampleCNVs) (gas : Nat) (chrom : String)
    (start end_ cn : Int) : Except String (Option SampleCNVs) :=
  -- For LymphGen compatability: Strip "chr" prefix
  let chrom := pyReplace chrom "chr" ""
  if end_ ≤ start then
    if start = end_ then
      -- This segment has a length of 0. Skip it (return None, self unchanged)
      .ok (some self)
    else
      -- This segment has a negative length
      .error ("Invalid CNV segment: " ++ chrom)
  else
    if (dictGet self.len_seg chrom).isNone then
      -- First event for this chromosome: just store this segment
      .ok (some { self with
        starts := dictSet self.starts chrom [start],
        ends := dictSet self.ends chrom [end_],
        cn_states := dictSet self.cn_states chrom [cn],
        len_seg := dictSet self.len_seg chrom 1,
        is_chr_prefixed :=
          if self.is_chr_prefixed.isNone then some (pyStartsWith chrom "chr")
          else self.is_chr_prefixed })
    else
      match merge_overlapping_cnvs gas
          ((dictGet self.starts chrom).getD [])
          ((dictGet self.ends chrom).getD [])
          ((dictGet self.cn_states chrom).getD []) start end_ cn with
      | none => .ok none
      | some (s, e, c) =>
        let self := { self with
          starts := dictSet self.starts chrom s,
          ends := dictSet self.ends chrom e,
          cn_states := dictSet self.cn_states chrom c }
        .ok (some { self with len_seg := dictSet self.len_seg chrom self.cn_states.length })

/-- Run a sequence of `SampleCNVs.add` calls. -/
def runAdds (gas : Nat) : SampleCNVs → List (String × Int × Int × Int) →
    Except String (Option SampleCNVs)
  | self, [] => .ok (some self)
  | self, (chrom, s, e, cn) :: rest =>
    match self.add gas chrom s e cn with
    | .error m => .error m
    | .ok none => .ok none
    | .ok (some self') => runAdds gas self' rest

/-- The per-chromosome segment lists of a sample, defaulting to empty. -/
def SampleCNVs.segsOf (self : SampleCNVs) (chrom : String) :
    List Int × List Int × List Int :=
  ((dictGet self.starts chrom).getD [],
   (dictGet self.ends chrom).getD [],
   (dictGet self.cn_states chrom).getD [])

/-- Handle "chr" prefix nonsense: make a chromosome name match the key
space of the sample's dicts (shared by `overlap_chrom` / `adjust_ploidy`;
Python truthiness of the `None`-able flag via `optTrue`). -/
def fixChromPrefix (is_chr_prefixed : Option Bool) (chrom_name : String) : String :=
  if optTrue is_chr_prefixed ∧ ¬ pyStartsWith chrom_name "chr" then "chr" ++ chrom_name
  else if ¬ optTrue is_chr_prefixed ∧ pyStartsWith chrom_name "chr" then pyReplace chrom_name "chr" ""
  else chrom_name

/-- One per-side overlap bucket of `overlap_chrom`: the `{"p":, "q":, "Chrom":}`
dicts of the source. -/
structure ArmSums where
  p : Int
  q : Int
  Chrom : Int
deriving Repr, DecidableEq

/-- Add an overlap length to the `"p"` and `"Chrom"` slots. -/
def ArmSums.addP (s : ArmSums) (v : Int) : ArmSums :=
  { s with p := s.p + v, Chrom := s.Chrom + v }

/-- Add an overlap length to the `"q"` and `"Chrom"` slots. -/
def ArmSums.addQ (s : ArmSums) (v : Int) : ArmSums :=
  { s with q := s.q + v, Chrom := s.Chrom + v }

/-- The four overlap buckets of `overlap_chrom`. -/
structure OverlapSums where
  homdel_sum : ArmSums
  del_sum : ArmSums
  gain_sum : ArmSums
  amp_sum : ArmSums
deriving Repr, DecidableEq

/-- All-zero overlap buckets (the dict initialisations of the source). -/
def OverlapSums.zero : OverlapSums :=
  ⟨⟨0, 0, 0⟩, ⟨0, 0, 0⟩, ⟨0, 0, 0⟩, ⟨0, 0, 0⟩⟩

/-- Loop body of `overlap_chrom`: accumulate one segment into the four
buckets (source lines 272-311).  Arm coordinates are read with `.getD 0`;
the callers run after `adjust_ploidy` has substituted placeholders, so
all four are set. -/
def accumSegment (chromosome : Chromosome) (acc : OverlapSums)
    (start end_ cn : Int) : OverlapSums :=
  -- Ignore copy-neutral segments
  if cn = 2 then acc
  -- Segment falls out of range
  else if end_ < chromosome.p_start.getD 0 ∨ start > chromosome.q_end.getD 0 then acc
  else
    let acc :=
      if start < chromosome.p_end.getD 0 then
        let olap_start := if start > chromosome.p_start.getD 0 then start else chromosome.p_start.getD 0
        let olap_end := if end_ < chromosome.p_end.getD 0 then end_ else chromosome.p_end.getD 0
        let v := olap_end - olap_start
        if cn < 2 then
          let acc := { acc with del_sum := acc.del_sum.addP v }
          if cn < 1 then { acc with homdel_sum := acc.homdel_sum.addP v } else acc
        else if cn > 2 then
          let acc := { acc with gain_sum := acc.gain_sum.addP v }
          if cn > 3 then { acc with amp_sum := acc.amp_sum.addP v } else acc
        else acc
      else acc
    -- an `if`, not `elif`, in case a segment overlaps both the p and q arm
    if end_ > chromosome.q_start.getD 0 then
      let olap_start := if start > chromosome.q_start.getD 0 then start else chromosome.q_start.getD 0
      let olap_end := if end_ < chromosome.q_end.getD 0 then end_ else chromosome.q_end.getD 0
      let v := olap_end - olap_start
      if cn < 2 then
        let acc := { acc with del_sum := acc.del_sum.addQ v }
        if cn < 1 then { acc with homdel_sum := acc.homdel_sum.addQ v } else acc
      else if cn > 2 then
        let acc := { acc with gain_sum := acc.gain_sum.addQ v }
        if cn > 3 then { acc with amp_sum := acc.amp_sum.addQ v } else acc
      else acc
    else acc

/-- The `zip`-driven accumulation loop of `overlap_chrom`. -/
def overlapSumsLoop (chromosome : Chromosome) :
    List Int → List Int → List Int → OverlapSums → OverlapSums
  | s :: ss, e :: es, n :: ns, acc =>
    overlapSumsLoop chromosome ss es ns (accumSegment chromosome acc s e n)
  | _, _, _, acc => acc

/-- Gain half of the decision part of `overlap_chrom` (source lines
313-331): whole-chromosome `AMP`, else arm `AMP`s, whole-chromosome
`GAIN`, else arm `GAIN`s, written into the `events` dict. -/
def gainEvents (chrom_name : String) (chromosome : Chromosome)
    (S : OverlapSums) (threshold : ℚ)
    (events : List (String × String)) : List (String × String) :=
  let plen := chromosome.p_length
  let qlen := chromosome.q_length
  if divGT S.amp_sum.Chrom (plen + qlen) threshold then
    dictSet events (chrom_name ++ "Chrom") "AMP"
  else
    let events :=
      if divGT S.amp_sum.p plen threshold then dictSet events (chrom_name ++ "p") "AMP"
      else if divGT S.amp_sum.q qlen threshold then dictSet events (chrom_name ++ "q") "AMP"
      else events
    if (dictGet events (chrom_name ++ "Chrom")).isNone ∧
        divGT S.gain_sum.Chrom (plen + qlen) threshold then
      dictSet events (chrom_name ++ "Chrom") "GAIN"
    else
      let events :=
        if (dictGet events (chrom_name ++ "p")).isNone ∧ divGT S.gain_sum.p plen threshold then
          dictSet events (chrom_name ++ "p") "GAIN"
        else events
      if (dictGet events (chrom_name ++ "q")).isNone ∧ divGT S.gain_sum.q qlen threshold then
        dictSet events (chrom_name ++ "q") "GAIN"
      else events

/-- Loss half of the decision part of `overlap_chrom` (source lines
333-348), applied to the `events` dict left by the gain half. -/
def lossEvents (chrom_name : String) (chromosome : Chromosome)
    (S : OverlapSums) (threshold : ℚ)
    (events : List (String × String)) : List (String × String) :=
  let plen := chromosome.p_length
  let qlen := chromosome.q_length
  if divGT S.homdel_sum.Chrom (plen + qlen) threshold then
    dictSet events (chrom_name ++ "Chrom") "HOMDEL"
  else
    let events :=
      if divGT S.homdel_sum.p plen threshold then dictSet events (chrom_name ++ "p") "HOMDEL"
      else if divGT S.homdel_sum.q qlen threshold then dictSet events (chrom_name ++ "q") "HOMDEL"
      else events
    if (dictGet events (chrom_name ++ "Chrom")).isNone ∧
        divGT S.del_sum.Chrom (plen + qlen) threshold then
      dictSet events (chrom_name ++ "Chrom") "HETLOSS"
    else
      let events :=
        if (dictGet events (chrom_name ++ "p")).isNone ∧ divGT S.del_sum.p plen threshold then
          dictSet events (chrom_name ++ "p") "HETLOSS"
        else events
      if (dictGet events (chrom_name ++ "q")).isNone ∧ divGT S.del_sum.q qlen threshold then
        dictSet events (chrom_name ++ "q") "HETLOSS"
      else events

/-- Decision part of `overlap_chrom` (source lines 313-350): build the
`events` dict from the four buckets, gains first, then losses. -/
def overlapEvents (chrom_name : String) (chromosome : Chromosome)
    (S : OverlapSums) (threshold : ℚ) : List (String × String) :=
  lossEvents chrom_name chromosome S threshold
    (gainEvents chrom_name chromosome S threshold [])

/-- `SampleCNVs.overlap_chrom` (default `threshold` is `0.8 = mkRat 4 5`). -/
def SampleCNVs.overlap_chrom (self : SampleCNVs) (chromosome : Chromosome)
    (threshold : ℚ := mkRat 4 5) : List (String × String) :=
  let chrom_name := fixChromPrefix self.is_chr_prefixed chromosome.chrom
  match dictGet self.starts chrom_name with
  | none => []  -- No CN events for this chromosome: no overlap
  | some chrom_starts =>
    let chrom_ends := (dictGet self.ends chrom_name).getD []
    let chrom_cn := (dictGet self.cn_states chrom_name).getD []
    overlapEvents chrom_name chromosome
      (overlapSumsLoop chromosome chrom_starts chrom_ends chrom_cn OverlapSums.zero) threshold

/-- `ploidy_cov[cn] += v` with the `if cn not in ploidy_cov` initialisation
(`adjust_ploidy`, source lines 416-418 / 425-427). -/
def pcovAdd : List (Int × Int) → Int → Int → List (Int × Int)
  | [], cn, v => [(cn, v)]
  | (c, b) :: rest, cn, v =>
    if c = cn then (c, b + v) :: rest else (c, b) :: pcovAdd rest cn v

/-- Inner segment loop body of `adjust_ploidy` (source lines 405-427):
accumulate the p- and q-window overlap of one segment into `ploidy_cov`.
Copy-neutral segments are NOT skipped here. -/
def ploidyAccumSegment (chromosome : Chromosome) (pcov : List (Int × Int))
    (start end_ cn : Int) : List (Int × Int) :=
  if end_ < chromosome.p_start.getD 0 ∨ start > chromosome.q_end.getD 0 then pcov
  else
    let pcov :=
      if start < chromosome.p_end.getD 0 then
        let olap_start := if start > chromosome.p_start.getD 0 then start else chromosome.p_start.getD 0
        let olap_end := if end_ < chromosome.p_end.getD 0 then end_ else chromosome.p_end.getD 0
        pcovAdd pcov cn (olap_end - olap_start)
      else pcov
    if end_ > chromosome.q_start.getD 0 then
      let olap_start := if start > chromosome.q_start.getD 0 then start else chromosome.q_start.getD 0
      let olap_end := if end_ < chromosome.q_end.getD 0 then end_ else chromosome.q_end.getD 0
      pcovAdd pcov cn (olap_end - olap_start)
    else pcov

/-- The `zip`-driven segment loop of `adjust_ploidy`. -/
def ploidyCovLoop (chromosome : Chromosome) :
    List Int → List Int → List Int → List (Int × Int) → List (Int × Int)
  | s :: ss, e :: es, n :: ns, pcov =>
    ploidyCovLoop chromosome ss es ns (ploidyAccumSegment chromosome pcov s e n)
  | _, _, _, pcov => pcov

/-- Placeholder substitution of `adjust_ploidy` (source lines 377-384):
if the p or q arm coordinates are not set, write a length-1 placeholder
into the (shared) `Chromosome` object. -/
def placeholderSubst (c : Chromosome) : Chromosome :=
  let c := if c.p_start.isNone then
    { c with p_start := some (-100000), p_end := some (-100000), p_length := 1 } else c
  if c.q_start.isNone then
    { c with q_start := some (-100000), q_end := some (-100000), q_length := 1 } else c

/-- Per-chromosome segment lookup of `adjust_ploidy` / the spec sums:
the `try: self.starts[chrom_name] except KeyError` block after the
"chr"-prefix fix-up. -/
def SampleCNVs.ploidyChromSegs (self : SampleCNVs) (c : Chromosome) :
    Option (List Int × List Int × List Int) :=
  let chrom_name := fixChromPrefix self.is_chr_prefixed c.chrom
  match dictGet self.starts chrom_name with
  | none => none
  | some chrom_starts =>
    some (chrom_starts, (dictGet self.ends chrom_name).getD [],
          (dictGet self.cn_states chrom_name).getD [])

/-- The chromosome loop of `adjust_ploidy` (source lines 373-427): thread
the mutated arm table, `ploidy_cov` and `genome_size` through the loop. -/
def ploidyArmLoop (self : SampleCNVs) :
    List (String × Chromosome) → List (Int × Int) → Int →
    List (String × Chromosome) × List (Int × Int) × Int
  | [], pcov, gsize => ([], pcov, gsize)
  | (k, c) :: rest, pcov, gsize =>
    let c := placeholderSubst c
    let gsize := gsize + c.p_length + c.q_length
    let pcov :=
      match self.ploidyChromSegs c with
      | none => pcov  -- No CN events for this chromosome
      | some (ss, es, ns) => ploidyCovLoop c ss es ns pcov
    let out := ploidyArmLoop self rest pcov gsize
    ((k, c) :: out.1, out.2.1, out.2.2)

/-- The `x += cn * bases` loop of `adjust_ploidy` (source lines 430-432). -/
def ploidyWeightedSum : List (Int × Int) → Int
  | [] => 0
  | (cn, bases) :: rest => cn * bases + ploidyWeightedSum rest

/-- `SampleCNVs.adjust_ploidy`.  Returns (error message or `none`, the
sample after the call, the arm table after the call); the Python code
mutates both `self` and the `Chromosome` objects of `arm_coords` in
place, so both post-states are returned. -/
def SampleCNVs.adjust_ploidy (self : SampleCNVs)
    (arm_coords : List (String × Chromosome)) (sample_name : String)
    (redo : Bool := false) :
    Option String × SampleCNVs × List (String × Chromosome) :=
  if self.ploidy.isSome ∧ ¬ redo then
    -- Ploidy already calculated: don't do anything
    (none, self, arm_coords)
  else
    let out := ploidyArmLoop self arm_coords [] 0
    let arm_coords := out.1
    let x := ploidyWeightedSum out.2.1
    let genome_size := out.2.2
    let av_ploidy := pyRoundRat x genome_size
    if av_ploidy < 1 then
      (some ("Ploidy of sample " ++ sample_name ++ " was calculated to be below 1!"),
       self, arm_coords)
    else
      let self :=
        if av_ploidy ≠ 2 then
          let ploidy_dif := av_ploidy - 2
          { self with cn_states :=
              self.cn_states.map (fun kv => (kv.1, kv.2.map (fun y => y - ploidy_dif))) }
        else self
      (none, { self with ploidy := some av_ploidy }, arm_coords)

/-- The loop over `genes_on_chrom.items()` of `get_overlap_genes`
(source lines 1054-1072); `.error` models the `NotImplementedError`
raised on a copy-neutral segment. -/
def overlapGenesLoop (start end_ copy_num : Int) :
    List (String × Gene) → Except String (List String)
  | [] => .ok []
  | (entrez_id, gene_info) :: rest =>
    if start < gene_info.end_ ∧ end_ > gene_info.start then
      -- Overlap found
      if copy_num < 2 then
        match overlapGenesLoop start end_ copy_num rest with
        | .error m => .error m
        | .ok l => .ok (entrez_id :: l)
      else if copy_num > 2 then
        if start > gene_info.start ∨ end_ < gene_info.end_ then
          overlapGenesLoop start end_ copy_num rest  -- Partially overlapping
        else
          match overlapGenesLoop start end_ copy_num rest with
          | .error m => .error m
          | .ok l => .ok (entrez_id :: l)
      else .error "Not calculating overlapping genes for copy-neutral segments"
    else overlapGenesLoop start end_ copy_num rest

/-- The chromosome key actually looked up by `get_overlap_genes` after
its chr-prefix fix-up (driven by the first key of the gene dict). -/
def geneChromKey (gene_cords : List (String × List (String × Gene))) (chrom : String) : String :=
  match gene_cords with
  | [] => chrom
  | (k0, _) :: _ =>
    let is_chr_prefixed := pyStartsWith k0 "chr"
    if is_chr_prefixed ∧ ¬ pyStartsWith chrom "chr" then "chr" ++ chrom
    else if ¬ is_chr_prefixed ∧ pyStartsWith chrom "chr" then pyReplace chrom "chr" ""
    else chrom

/-- `get_overlap_genes`: find the genes which overlap a given segment.
An empty gene dict makes `next(iter(gene_cords.keys()))` raise
`StopIteration`, modelled as an `.error`. -/
def get_overlap_genes (chrom : String) (start end_ copy_num : Int)
    (gene_cords : List (String × List (String × Gene))) : Except String (List String) :=
  match gene_cords with
  | [] => .error "StopIteration"
  | _ :: _ =>
    match dictGet gene_cords (geneChromKey gene_cords chrom) with
    | none => .ok []  -- No genes on this contig
    | some genes_on_chrom => overlapGenesLoop start end_ copy_num genes_on_chrom

/-- Overlap length of one segment with the p- and q-windows of a
(placeholder-substituted) chromosome, exactly as the `adjust_ploidy`
segment loop computes it: 0 for out-of-range segments, and the p- and
q-window clips otherwise. -/
def segPQOverlap (c : Chromosome) (start end_ : Int) : Int :=
  if end_ < c.p_start.getD 0 ∨ start > c.q_end.getD 0 then 0
  else
    (if start < c.p_end.getD 0 then
       (if end_ < c.p_end.getD 0 then end_ else c.p_end.getD 0) -
       (if start > c.p_start.getD 0 then start else c.p_start.getD 0)
     else 0) +
    (if end_ > c.q_start.getD 0 then
       (if end_ < c.q_end.getD 0 then end_ else c.q_end.getD 0) -
       (if start > c.q_start.getD 0 then start else c.q_start.getD 0)
     else 0)

/-- Direct per-chromosome sum of `cn * overlapLength` over the segments. -/
def chromCNWeighted (c : Chromosome) : List Int → List Int → List Int → Int
  | s :: ss, e :: es, n :: ns => n * segPQOverlap c s e + chromCNWeighted c ss es ns
  | _, _, _ => 0

/-- Direct per-chromosome sum of the overlap lengths over the segments. -/
def chromOverlapLen (c : Chromosome) : List Int → List Int → Int
  | s :: ss, e :: es => segPQOverlap c s e + chromOverlapLen c ss es
  | _, _ => 0

/-- The claim's `S1`: sum of `cn * overlapLength` over all chromosomes
with arm data (unset arms via the length-1 placeholder). -/
def specCNWeightedSum (self : SampleCNVs) : List (String × Chromosome) → Int
  | [] => 0
  | (_, c) :: rest =>
    let c := placeholderSubst c
    (match self.ploidyChromSegs c with
     | none => 0
     | some (ss, es, ns) => chromCNWeighted c ss es ns) + specCNWeightedSum self rest

/-- The claim's `S2` reading "sum of those same overlap lengths": total
overlap length of the profile's segments with the arm windows. -/
def specOverlapSum (self : SampleCNVs) : List (String × Chromosome) → Int
  | [] => 0
  | (_, c) :: rest =>
    let c := placeholderSubst c
    (match self.ploidyChromSegs c with
     | none => 0
     | some (ss, es, _) => chromOverlapLen c ss es) + specOverlapSum self rest

/-- What the claim says ploidy normalization returns:
`round(S1 / S2)` with `S2` the summed overlap lengths. -/
def claimC2Ploidy (self : SampleCNVs) (arm_coords : List (String × Chromosome)) : Int :=
  pyRoundRat (specCNWeightedSum self arm_coords) (specOverlapSum self arm_coords)

/-- The genome size the code actually divides by: total arm length
(after placeholder substitution), independent of the segments. -/
def specGenomeSize : List (String × Chromosome) → Int
  | [] => 0
  | (_, c) :: rest =>
    let c := placeholderSubst c
    c.p_length + c.q_length + specGenomeSize rest

/-- The consolidator invariant for one chromosome: three parallel lists of
equal length, every segment non-degenerate (`start < end`), adjacent
segments non-overlapping (`end[i] ≤ start[i+1]`). -/
def ChromInv (starts ends cns : List Int) : Prop :=
  starts.length = ends.length ∧ starts.length = cns.length ∧
  (∀ i, i < starts.length → starts.getD i 0 < ends.getD i 0) ∧
  (∀ i, i + 1 < starts.length → ends.getD i 0 ≤ starts.getD (i + 1) 0)

/-- Sorted strictly ascending by start. -/
def StartsSorted (starts : List Int) : Prop :=
  ∀ i, i + 1 < starts.length → starts.getD i 0 < starts.getD (i + 1) 0

/-- Well-formedness of a chromosome record as the classifier uses it:
all four coordinates set, windows ordered and disjoint, stored lengths
positive and at least the window sizes.  Holds for arms loaded by
`Chromosome.add` (length `= end - start > 0`) and for the length-1
placeholders (`empty window, length 1`). -/
def ChromWF (c : Chromosome) : Prop :=
  c.p_start.getD 0 ≤ c.p_end.getD 0 ∧
  c.q_start.getD 0 ≤ c.q_end.getD 0 ∧
  c.p_end.getD 0 ≤ c.q_start.getD 0 ∧
  0 < c.p_length ∧ 0 < c.q_length ∧
  c.p_end.getD 0 - c.p_start.getD 0 ≤ c.p_length ∧
  c.q_end.getD 0 - c.q_start.getD 0 ≤ c.q_length

/-- Loss-family classification labels. -/
def isLossLabel (v : String) : Prop := v = "HOMDEL" ∨ v = "HETLOSS"

/-- Gain-family classification labels. -/
def isGainLabel (v : String) : Prop := v = "AMP" ∨ v = "GAIN"

/-- Zero out the gain-family overlap sums. -/
def OverlapSums.zeroGains (S : OverlapSums) : OverlapSums :=
  { S with gain_sum := ⟨0, 0, 0⟩, amp_sum := ⟨0, 0, 0⟩ }

/-- Zero out the loss-family overlap sums. -/
def OverlapSums.zeroLosses (S : OverlapSums) : OverlapSums :=
  { S with homdel_sum := ⟨0, 0, 0⟩, del_sum := ⟨0, 0, 0⟩ }

/-- The spec's gene-overlap policy: the gene intersects the half-open
segment, and the event is a loss (any intersection) or a gain that fully
contains the gene. -/
def genePolicy (start end_ copy_num : Int) (g : Gene) : Prop :=
  (start < g.end_ ∧ end_ > g.start) ∧
  (copy_num < 2 ∨ (copy_num > 2 ∧ start ≤ g.start ∧ g.end_ ≤ end_))

/-- The average ploidy the code computes: `round(x / genome_size)` with
`x` the CN-weighted overlap total and `genome_size` the summed arm
lengths. -/
def codePloidy (self : SampleCNVs) (arm_coords : List (String × Chromosome)) : Int :=
  pyRoundRat (specCNWeightedSum self arm_coords) (specGenomeSize arm_coords)

/-- The consolidator invariant on every chromosome of a sample. -/
def SampleInv (self : SampleCNVs) : Prop :=
  ∀ chrom, ChromInv (self.segsOf chrom).1 (self.segsOf chrom).2.1 (self.segsOf chrom).2.2

/-- Fixture: a two-arm chromosome covering `[0,100)` (genome size 100). -/
def chrFull100 : Chromosome :=
  { chrom := "1", p_start := some 0, p_end := some 50,
    q_start := some 50, q_end := some 100, p_length := 50, q_length := 50 }

/-- Fixture: a chromosome with the q arm unset. -/
def chrNoQ : Chromosome :=
  { chrom := "1", p_start := some 0, p_end := some 50, p_length := 50 }

/-- Fixture: a two-arm chromosome covering `[0,2000)`. -/
def chrFull2000 : Chromosome :=
  { chrom := "1", p_start := some 0, p_end := some 1000,
    q_start := some 1000, q_end := some 2000, p_length := 1000, q_length := 1000 }

/-- Fixture: one segment `[0,100), cn=4` covering the whole of `chrFull100`
(exactly the state `add("1", 0, 100, 4)` produces from a fresh sample). -/
def profCov4 : SampleCNVs :=
  { starts := [("1", [0])], ends := [("1", [100])], cn_states := [("1", [4])],
    len_seg := [("1", 1)], is_chr_prefixed := some false, ploidy := none }

/-- Fixture: one segment `[0,50), cn=4` covering only the p arm of
`chrFull100`. -/
def profHalf4 : SampleCNVs :=
  { starts := [("1", [0])], ends := [("1", [50])], cn_states := [("1", [4])],
    len_seg := [("1", 1)], is_chr_prefixed := some false, ploidy := none }

/-- Fixture: the result of inserting `[100,300,cn=3]` then `[150,200,cn=1]`
into a fresh sample. -/
def profMixedSplit : SampleCNVs :=
  { starts := [("1", [100, 150, 200])], ends := [("1", [150, 200, 300])],
    cn_states := [("1", [3, 1, 3])], len_seg := [("1", 1)],
    is_chr_prefixed := some false, ploidy := none }

/-- Fixture: a one-gene table, gene `601` at `[10,20)` on chromosome 1. -/
def geneTable601 : List (String × List (String × Gene)) :=
  [("1", [("601", { name := "601", chrom := "1", start := 10, end_ := 20 })])]

/-- A chain of non-degenerate segments: every start at least `m`, each
segment's end at most the next start (cons-structured counterpart of
`ChromInv`, used by the overlap-capacity induction). -/
def segChain (m : Int) : List Int → List Int → Prop
  | s :: ss, e :: es => m ≤ s ∧ s < e ∧ segChain e ss es
  | [], [] => True
  | _, _ => False

/-- The list triple produced by the source's `reduce_old_event` closure
just before its recursive `merge_overlapping_cnvs` call: pop the old
segment at index `b`, then re-insert the valid pieces `[e, oldEnd)` and
`[oldStart, s)` (in that order, to keep sorted order), both carrying the
old state. -/
def reduceOldLists (starts ends cns : List Int) (b : Nat)
    (s e oldStart oldEnd oldCN : Int) : List Int × List Int × List Int :=
  let starts1 := pyPopAt starts b
  let ends1 := pyPopAt ends b
  let cns1 := pyPopAt cns b
  let starts2 := if e < oldEnd then pyInsertAt starts1 b e else starts1
  let ends2 := if e < oldEnd then pyInsertAt ends1 b oldEnd else ends1
  let cns2 := if e < oldEnd then pyInsertAt cns1 b oldCN else cns1
  let starts3 := if oldStart < s then pyInsertAt starts2 b oldStart else starts2
  let ends3 := if oldStart < s then pyInsertAt ends2 b s else ends2
  let cns3 := if oldStart < s then pyInsertAt cns2 b oldCN else cns2
  (starts3, ends3, cns3)

/-- The source's `reduce_new_event` closure as a function: recursively
insert the valid pieces `[s, oldStart)` and `[oldEnd, e)` of the new
segment, carrying the new state, leaving the old segment in place. -/
def reduceNewResult (gas : Nat) (starts ends cns : List Int)
    (s e cn oldStart oldEnd : Int) : Option (List Int × List Int × List Int) :=
  match (if s < oldStart then merge_overlapping_cnvs gas starts ends cns s oldStart cn
         else some (starts, ends, cns)) with
  | none => none
  | some (s1, e1, c1) =>
    if oldEnd < e then merge_overlapping_cnvs gas s1 e1 c1 oldEnd e cn
    else some (s1, e1, c1)

/-- C9: `insert` fails with `InvalidSegment` exactly when `end < start`;
a `start == end` call returns normally and leaves the sample unchanged. -/
theorem add_invalid_segment_iff (self : SampleCNVs) (gas : Nat) (chrom : String)
    (s e cn : Int) :
    ((∃ m, self.add gas chrom s e cn = Except.error m) ↔ e < s) ∧
    (s = e → self.add gas chrom s e cn = Except.ok (some self)) := by
  refine ⟨⟨?_, ?_⟩, ?_⟩
  · rintro ⟨m, hm⟩
    simp only [SampleCNVs.add] at hm
    split at hm
    · split at hm
      · exact absurd hm (by simp)
      · omega
    · split at hm
      · exact absurd hm (by simp)
      · split at hm <;> exact absurd hm (by simp)
  · intro hlt
    refine ⟨"Invalid CNV segment: " ++ pyReplace chrom "chr" "", ?_⟩
    simp only [SampleCNVs.add]
    rw [if_pos (by omega : e ≤ s), if_neg (by omega : ¬ s = e)]
  · intro hse
    simp only [SampleCNVs.add]
    rw [if_pos (by omega : e ≤ s), if_pos hse]

/-- C9 witness: the zero-length call `add("1", 5, 5, 2)` does not fail and
leaves the sample unchanged, and `add("1", 7, 5, 2)` fails. -/
theorem add_invalid_segment_iff_witness :
    SampleCNVs.init.add 20 "1" 5 5 2 = Except.ok (some SampleCNVs.init) ∧
    (∃ m, SampleCNVs.init.add 20 "1" 7 5 2 = Except.error m) :=
  ⟨(add_invalid_segment_iff SampleCNVs.init 20 "1" 5 5 2).2 rfl,
   (add_invalid_segment_iff SampleCNVs.init 20 "1" 7 5 2).1.mpr (by decide)⟩

/-- C10: if `adjust_ploidy` fails (computed ploidy below 1), the sample's
segment lists and cached ploidy are exactly as before the call. -/
theorem adjust_ploidy_error_preserves_profile (self : SampleCNVs)
    (arm_coords : List (String × Chromosome)) (sample_name : String)
    (redo : Bool) (m : String)
    (h : (self.adjust_ploidy arm_coords sample_name redo).1 = some m) :
    (self.adjust_ploidy arm_coords sample_name redo).2.1 = self := by
  by_cases hc : self.ploidy.isSome ∧ ¬ redo
  · simp only [SampleCNVs.adjust_ploidy, if_pos hc] at h
    exact absurd h (by simp)
  · simp only [SampleCNVs.adjust_ploidy, if_neg hc] at h ⊢
    split at h
    · next hlt => rw [if_pos hlt]
    · next hge => exact absurd h (by simp)

/-- C10 witness: a profile whose single segment has `cn=0` over a genome
of size 100 yields ploidy 0 and the error path, with the profile intact. -/
theorem adjust_ploidy_error_preserves_profile_witness :
    (({ profCov4 with cn_states := [("1", [0])] } : SampleCNVs).adjust_ploidy
        [("1", chrFull100)] "s" false).2.1
      = { profCov4 with cn_states := [("1", [0])] } :=
  adjust_ploidy_error_preserves_profile _ [("1", chrFull100)] "s" false
    "Ploidy of sample s was calculated to be below 1!" rfl

/-- C6 counterexample: `adjust_ploidy` writes the length-1 placeholder
into the shared arm table when an arm is unset — the `Chromosome` entry
for "1" is not bitwise unchanged by the call. -/
theorem arm_table_mutation_counterexample :
    (SampleCNVs.init.adjust_ploidy [("1", chrNoQ)] "s" false).2.2
        = [("1", { chrom := "1", p_start := some 0, p_end := some 50, p_length := 50,
                   q_start := some (-100000), q_end := some (-100000), q_length := 1 })] ∧
    chrNoQ.q_start = none ∧
    (SampleCNVs.init.adjust_ploidy [("1", chrNoQ)] "s" false).2.2 ≠ [("1", chrNoQ)] := by
  refine ⟨rfl, rfl, ?_⟩
  decide

/-- Arm entries whose two arms are both set are never touched by
placeholder substitution. -/
theorem placeholderSubst_of_set (c : Chromosome)
    (hp : c.p_start.isSome) (hq : c.q_start.isSome) : placeholderSubst c = c := by
  have hp' : ¬ c.p_start = none := by cases h : c.p_start <;> simp_all
  have hq' : ¬ c.q_start = none := by cases h : c.q_start <;> simp_all
  simp [placeholderSubst, Option.isNone_iff_eq_none, hp', hq']

/-- The arm loop's output table is pointwise placeholder substitution,
over any input table. -/
theorem ploidyArmLoop_table (self : SampleCNVs) :
    ∀ (arms : List (String × Chromosome)) (pcov : List (Int × Int)) (gsize : Int),
    (ploidyArmLoop self arms pcov gsize).1
      = arms.map (fun kv => (kv.1, placeholderSubst kv.2)) := by
  intro arms
  induction arms with
  | nil => intro _ _; rfl
  | cons hd tl ih =>
    intro pcov gsize
    simp only [ploidyArmLoop, List.map, ih]

/-- C6 (amended): the classifier and the gene annotator only read the
tables, and in any arm table every `Chromosome` entry whose p and q
arms are both set is left bitwise unchanged in place by `adjust_ploidy`;
only unset-arm entries are rewritten (to the length-1 placeholder). -/
theorem adjust_ploidy_preserves_set_arm_table (self : SampleCNVs)
    (arm_coords : List (String × Chromosome)) (sample_name : String) (redo : Bool)
    (i : Nat) (hi : i < arm_coords.length)
    (hp : (arm_coords.get ⟨i, hi⟩).2.p_start.isSome)
    (hq : (arm_coords.get ⟨i, hi⟩).2.q_start.isSome) :
    ∃ hlen : i < (self.adjust_ploidy arm_coords sample_name redo).2.2.length,
      (self.adjust_ploidy arm_coords sample_name redo).2.2.get ⟨i, hlen⟩
        = arm_coords.get ⟨i, hi⟩ := by
  have hchar : (self.adjust_ploidy arm_coords sample_name redo).2.2 = arm_coords ∨
      (self.adjust_ploidy arm_coords sample_name redo).2.2
        = arm_coords.map (fun kv => (kv.1, placeholderSubst kv.2)) := by
    simp only [SampleCNVs.adjust_ploidy]
    by_cases h1 : self.ploidy.isSome ∧ ¬ redo
    · simp only [if_pos h1]
      exact Or.inl trivial
    · simp only [if_neg h1]
      right
      split
      · simpa using ploidyArmLoop_table self arm_coords [] 0
      · simpa using ploidyArmLoop_table self arm_coords [] 0
  rcases hchar with h | h
  · rw [h]
    exact ⟨hi, rfl⟩
  · rw [h]
    refine ⟨by simpa using hi, ?_⟩
    simp only [List.get_eq_getElem, List.getElem_map]
    simp only [List.get_eq_getElem] at hp hq
    rw [placeholderSubst_of_set _ hp hq]

/-- C6 (amended) witness: in a mixed table (chromosome "1" with both
arms set, chromosome "2" with its q arm unset), the fully-set entry
comes back bitwise equal at its position. -/
theorem adjust_ploidy_preserves_set_arm_table_witness :
    ∃ hlen : 0 <
        (profCov4.adjust_ploidy [("1", chrFull100), ("2", chrNoQ)] "s" false).2.2.length,
      (profCov4.adjust_ploidy [("1", chrFull100), ("2", chrNoQ)] "s" false).2.2.get
          ⟨0, hlen⟩
        = ([("1", chrFull100), ("2", chrNoQ)] : List (String × Chromosome)).get
            ⟨0, by decide⟩ :=
  adjust_ploidy_preserves_set_arm_table profCov4 [("1", chrFull100), ("2", chrNoQ)]
    "s" false 0 (by decide) (by decide) (by decide)

instance (s e cn : Int) (g : Gene) : Decidable (genePolicy s e cn g) := by
  unfold genePolicy; infer_instance

/-- For non-copy-neutral segments the gene loop never fails and returns
exactly the ids of the genes passing the loss/gain overlap policy, in
table order. -/
theorem overlapGenesLoop_eq_filter (s e cn : Int) (hcn : cn ≠ 2)
    (genes : List (String × Gene)) :
    overlapGenesLoop s e cn genes =
      .ok ((genes.filter (fun p => decide (genePolicy s e cn p.2))).map Prod.fst) := by
  induction genes with
  | nil => rfl
  | cons hd tl ih =>
    obtain ⟨gi, g⟩ := hd
    simp only [overlapGenesLoop, ih, List.filter_cons]
    by_cases hov : s < g.end_ ∧ e > g.start
    · rw [if_pos hov]
      by_cases hlt : cn < 2
      · rw [if_pos hlt]
        have : decide (genePolicy s e cn g) = true := by
          simp [genePolicy, hov, hlt]
        simp [this]
      · rw [if_neg hlt]
        have hgt : cn > 2 := by omega
        rw [if_pos hgt]
        by_cases hpart : s > g.start ∨ e < g.end_
        · rw [if_pos hpart]
          have : decide (genePolicy s e cn g) = false := by
            simp [genePolicy, hov]
            omega
          simp [this]
        · rw [if_neg hpart]
          have : decide (genePolicy s e cn g) = true := by
            simp [genePolicy, hov]
            omega
          simp [this]
    · rw [if_neg hov]
      have : decide (genePolicy s e cn g) = false := by
        simp [genePolicy]
        intro h1 h2
        exact absurd ⟨h1, h2⟩ hov
      simp [this]

/-- C5: for a focal segment with `cn ≠ 2`, a gene id is returned exactly
when some gene with that id on the looked-up chromosome intersects the
half-open segment and (loss: any intersection; gain: full containment)
holds. -/
theorem gene_overlap_policy (chrom : String) (s e cn : Int)
    (table : List (String × List (String × Gene))) (genes : List (String × Gene))
    (l : List String) (gid : String) (hcn : cn ≠ 2)
    (hgenes : dictGet table (geneChromKey table chrom) = some genes)
    (hrun : get_overlap_genes chrom s e cn table = .ok l) :
    gid ∈ l ↔ ∃ g, (gid, g) ∈ genes ∧ genePolicy s e cn g := by
  cases table with
  | nil => simp [dictGet] at hgenes
  | cons hd tl =>
    simp only [get_overlap_genes] at hrun
    rw [hgenes] at hrun
    have hrun : overlapGenesLoop s e cn genes = Except.ok l := hrun
    rw [overlapGenesLoop_eq_filter s e cn hcn genes] at hrun
    have hl : l = (genes.filter (fun p => decide (genePolicy s e cn p.2))).map Prod.fst := by
      cases hrun; rfl
    subst hl
    simp only [List.mem_map, List.mem_filter, decide_eq_true_eq]
    constructor
    · rintro ⟨⟨gi, g⟩, ⟨hmem, hpol⟩, hfst⟩
      obtain rfl : gi = gid := hfst
      exact ⟨g, hmem, hpol⟩
    · rintro ⟨g, hmem, hpol⟩
      exact ⟨(gid, g), ⟨hmem, hpol⟩, rfl⟩

/-- C5 witness: a loss segment `[5,15)` partially overlapping gene 601 at
`[10,20)` reports the gene. -/
theorem gene_overlap_policy_witness :
    "601" ∈ ["601"] ↔
      ∃ g, ("601", g) ∈ [("601", ({ name := "601", chrom := "1", start := 10, end_ := 20 } : Gene))] ∧
        genePolicy 5 15 1 g :=
  gene_overlap_policy "1" 5 15 1 geneTable601
    [("601", { name := "601", chrom := "1", start := 10, end_ := 20 })]
    ["601"] "601" (by decide) rfl rfl

/-- C7 counterexample: a copy-neutral call over a chromosome with no
(intersecting) genes returns normally with the empty list instead of
failing with `InvalidCNState`. -/
theorem cn2_call_returns_counterexample :
    get_overlap_genes "1" 0 10 2 [("1", ([] : List (String × Gene)))]
      = Except.ok [] := rfl

/-- The gene loop with `cn = 2` fails exactly when some gene intersects
the segment, and returns the empty list otherwise. -/
theorem overlapGenesLoop_cn2 (s e : Int) (genes : List (String × Gene)) :
    ((∃ m, overlapGenesLoop s e 2 genes = .error m) ↔
      ∃ p ∈ genes, s < p.2.end_ ∧ e > p.2.start) ∧
    (¬ (∃ p ∈ genes, s < p.2.end_ ∧ e > p.2.start) →
      overlapGenesLoop s e 2 genes = .ok []) := by
  induction genes with
  | nil => simp [overlapGenesLoop]
  | cons hd tl ih =>
    obtain ⟨gi, g⟩ := hd
    simp only [overlapGenesLoop]
    by_cases hov : s < g.end_ ∧ e > g.start
    · rw [if_pos hov, if_neg (by omega : ¬ (2:Int) < 2), if_neg (by omega : ¬ (2:Int) > 2)]
      constructor
      · constructor
        · intro _; exact ⟨(gi, g), by simp, hov⟩
        · intro _; exact ⟨_, rfl⟩
      · intro hno; exact absurd ⟨(gi, g), by simp, hov⟩ hno
    · rw [if_neg hov]
      constructor
      · rw [ih.1]
        constructor
        · rintro ⟨p, hp, hovp⟩; exact ⟨p, by simp [hp], hovp⟩
        · rintro ⟨p, hp, hovp⟩
          rcases List.mem_cons.mp hp with h | h
          · subst h; exact absurd hovp hov
          · exact ⟨p, h, hovp⟩
      · intro hno
        exact ih.2 (fun ⟨p, hp, hovp⟩ => hno ⟨p, by simp [hp], hovp⟩)

/-- C7 (amended): a copy-neutral call fails with `InvalidCNState` exactly
when some gene on the looked-up chromosome intersects `[start,end)`;
with no intersecting gene it returns the empty list. -/
theorem cn2_error_iff (chrom : String) (s e : Int)
    (table : List (String × List (String × Gene))) (genes : List (String × Gene))
    (hgenes : dictGet table (geneChromKey table chrom) = some genes) :
    ((∃ m, get_overlap_genes chrom s e 2 table = .error m) ↔
      ∃ p ∈ genes, s < p.2.end_ ∧ e > p.2.start) ∧
    (¬ (∃ p ∈ genes, s < p.2.end_ ∧ e > p.2.start) →
      get_overlap_genes chrom s e 2 table = .ok []) := by
  cases table with
  | nil => simp [dictGet] at hgenes
  | cons hd tl =>
    simp only [get_overlap_genes]
    rw [hgenes]
    show ((∃ m, overlapGenesLoop s e 2 genes = .error m) ↔ _) ∧
      (_ → overlapGenesLoop s e 2 genes = .ok [])
    exact overlapGenesLoop_cn2 s e genes

/-- C7 (amended) witness: `cn = 2` over gene 601 (intersecting) fails,
and over a disjoint window returns `[]`. -/
theorem cn2_error_iff_witness :
    (∃ m, get_overlap_genes "1" 5 15 2 geneTable601 = .error m) ∧
    get_overlap_genes "1" 100 200 2 geneTable601 = .ok [] :=
  ⟨(cn2_error_iff "1" 5 15 geneTable601
      [("601", { name := "601", chrom := "1", start := 10, end_ := 20 })] rfl).1.mpr
      ⟨("601", { name := "601", chrom := "1", start := 10, end_ := 20 }), by decide, by decide⟩,
   (cn2_error_iff "1" 100 200 geneTable601
      [("601", { name := "601", chrom := "1", start := 10, end_ := 20 })] rfl).2
      (by decide)⟩

/-- Adding to the `ploidy_cov` dict adds `cn * v` to its weighted total. -/
theorem ploidyWeightedSum_pcovAdd (p : List (Int × Int)) (cn v : Int) :
    ploidyWeightedSum (pcovAdd p cn v) = ploidyWeightedSum p + cn * v := by
  induction p with
  | nil => simp [pcovAdd, ploidyWeightedSum]
  | cons hd tl ih =>
    obtain ⟨c, b⟩ := hd
    simp only [pcovAdd]
    by_cases h : c = cn
    · subst h
      simp only [if_pos rfl, ploidyWeightedSum]
      ring
    · rw [if_neg h]
      simp only [ploidyWeightedSum, ih]
      ring

/-- One segment contributes `cn * (p-overlap + q-overlap)` to the
`ploidy_cov` weighted total. -/
theorem ploidyAccumSegment_weight (c : Chromosome) (pcov : List (Int × Int))
    (s e n : Int) :
    ploidyWeightedSum (ploidyAccumSegment c pcov s e n) =
      ploidyWeightedSum pcov + n * segPQOverlap c s e := by
  simp only [ploidyAccumSegment, segPQOverlap]
  by_cases h1 : e < c.p_start.getD 0 ∨ s > c.q_end.getD 0
  · simp [h1]
  · rw [if_neg h1, if_neg h1]
    by_cases h2 : s < c.p_end.getD 0 <;> by_cases h3 : e > c.q_start.getD 0 <;>
      simp only [h2, h3, if_true, if_false, ite_true, ite_false,
        ploidyWeightedSum_pcovAdd] <;> ring

/-- The segment loop of `adjust_ploidy` adds the per-chromosome
CN-weighted overlap to the `ploidy_cov` weighted total. -/
theorem ploidyCovLoop_weight (c : Chromosome) :
    ∀ (ss es ns : List Int) (pcov : List (Int × Int)),
      ploidyWeightedSum (ploidyCovLoop c ss es ns pcov) =
        ploidyWeightedSum pcov + chromCNWeighted c ss es ns := by
  intro ss
  induction ss with
  | nil => intro es ns pcov; simp [ploidyCovLoop, chromCNWeighted]
  | cons s ss ih =>
    intro es ns pcov
    cases es with
    | nil => simp [ploidyCovLoop, chromCNWeighted]
    | cons e es =>
      cases ns with
      | nil => simp [ploidyCovLoop, chromCNWeighted]
      | cons n ns =>
        simp only [ploidyCovLoop, chromCNWeighted, ih, ploidyAccumSegment_weight]
        ring

/-- The chromosome loop of `adjust_ploidy` computes exactly the
CN-weighted overlap total `S1` and the arm-length genome size `S2`. -/
theorem ploidyArmLoop_sums (self : SampleCNVs) :
    ∀ (arms : List (String × Chromosome)) (pcov : List (Int × Int)) (gsize : Int),
      ploidyWeightedSum (ploidyArmLoop self arms pcov gsize).2.1 =
        ploidyWeightedSum pcov + specCNWeightedSum self arms ∧
      (ploidyArmLoop self arms pcov gsize).2.2 = gsize + specGenomeSize arms := by
  intro arms
  induction arms with
  | nil =>
    intro pcov gsize
    simp [ploidyArmLoop, specCNWeightedSum, specGenomeSize]
  | cons hd tl ih =>
    intro pcov gsize
    obtain ⟨k, c⟩ := hd
    simp only [ploidyArmLoop, specCNWeightedSum, specGenomeSize]
    cases hseg : SampleCNVs.ploidyChromSegs self (placeholderSubst c) with
    | none =>
      dsimp only
      refine ⟨?_, ?_⟩
      · rw [(ih _ _).1]; ring
      · rw [(ih _ _).2]; ring
    | some triple =>
      obtain ⟨ss, es, ns⟩ := triple
      dsimp only
      refine ⟨?_, ?_⟩
      · rw [(ih _ _).1, ploidyCovLoop_weight]; ring
      · rw [(ih _ _).2]; ring

/-- Mapping `y - 0` over the CN dict is the identity. -/
theorem cn_states_map_sub_zero (d : List (String × List Int)) :
    d.map (fun kv => (kv.1, kv.2.map (fun y => y - (0 : Int)))) = d := by
  induction d with
  | nil => rfl
  | cons hd tl ih => simp [ih]

/-- C2 counterexample: with one segment `cn=4` covering only half of a
genome of size 100, the claim's formula (overlap-length denominator)
gives ploidy 4, but the code divides by the arm-length genome size and
returns ploidy 2, leaving every `cn` at 4. -/
theorem ploidy_denominator_counterexample :
    claimC2Ploidy profHalf4 [("1", chrFull100)] = 4 ∧
    (profHalf4.adjust_ploidy [("1", chrFull100)] "s" false).1 = none ∧
    (profHalf4.adjust_ploidy [("1", chrFull100)] "s" false).2.1.ploidy = some 2 ∧
    (profHalf4.adjust_ploidy [("1", chrFull100)] "s" false).2.1.cn_states = [("1", [4])] :=
  ⟨rfl, rfl, rfl, rfl⟩

/-- C2 (amended): ploidy normalization computes
`round(S1 / genomeSize)` where `S1` is the CN-weighted overlap total and
the denominator is the summed arm lengths (placeholders included), NOT
the summed overlap lengths; on success the ploidy is cached and every
`cn` is shifted by `-(ploidy - 2)`; the whole-genome `cn=4` example
yields ploidy 4 and all segments at `cn=2`. -/
theorem adjust_ploidy_rounds_genome_size (self : SampleCNVs)
    (arms : List (String × Chromosome)) (sample_name : String) (redo : Bool)
    (hfresh : self.ploidy = none ∨ redo = true) :
    ((codePloidy self arms < 1 → ((self.adjust_ploidy arms sample_name redo).1).isSome) ∧
     (1 ≤ codePloidy self arms →
       (self.adjust_ploidy arms sample_name redo).1 = none ∧
       (self.adjust_ploidy arms sample_name redo).2.1.ploidy = some (codePloidy self arms) ∧
       (self.adjust_ploidy arms sample_name redo).2.1.cn_states =
         self.cn_states.map (fun kv =>
           (kv.1, kv.2.map (fun y => y - (codePloidy self arms - 2)))))) ∧
    ((profCov4.adjust_ploidy [("1", chrFull100)] "s" false).2.1.ploidy = some 4 ∧
     (profCov4.adjust_ploidy [("1", chrFull100)] "s" false).2.1.cn_states = [("1", [2])]) := by
  have hav : pyRoundRat (ploidyWeightedSum (ploidyArmLoop self arms [] 0).2.1)
      (ploidyArmLoop self arms [] 0).2.2 = codePloidy self arms := by
    have h := ploidyArmLoop_sums self arms [] 0
    rw [h.1, h.2]
    simp [ploidyWeightedSum, codePloidy]
  have hcond : ¬ (self.ploidy.isSome ∧ ¬ redo) := by
    rcases hfresh with h | h
    · simp [h]
    · simp [h]
  refine ⟨⟨?_, ?_⟩, rfl, rfl⟩
  · intro hlt
    simp only [SampleCNVs.adjust_ploidy, if_neg hcond]
    rw [if_pos (by rw [hav]; exact hlt)]
    rfl
  · intro hge
    simp only [SampleCNVs.adjust_ploidy, if_neg hcond]
    rw [if_neg (by rw [hav]; omega)]
    refine ⟨rfl, by simp [hav], ?_⟩
    by_cases hav2 : codePloidy self arms = 2
    · rw [if_neg (by rw [hav, hav2]; simp)]
      simp only [hav2]
      exact (cn_states_map_sub_zero self.cn_states).symm
    · rw [if_pos (by rw [hav]; exact hav2)]
      simp [hav]

/-- C2 (amended) witness: the whole-genome example succeeds with the
formula's value. -/
theorem adjust_ploidy_rounds_genome_size_witness :
    (profCov4.adjust_ploidy [("1", chrFull100)] "s" false).1 = none ∧
    (profCov4.adjust_ploidy [("1", chrFull100)] "s" false).2.1.ploidy
      = some (codePloidy profCov4 [("1", chrFull100)]) ∧
    (profCov4.adjust_ploidy [("1", chrFull100)] "s" false).2.1.cn_states =
      profCov4.cn_states.map (fun kv =>
        (kv.1, kv.2.map (fun y => y - (codePloidy profCov4 [("1", chrFull100)] - 2)))) :=
  (adjust_ploidy_rounds_genome_size profCov4 [("1", chrFull100)] "s" false
    (Or.inl rfl)).1.2 (by decide)

/-- C8: when the first overlapping existing segment has the same CN, the
old segment is removed and the union span `[min(start,oldStart),
max(end,oldEnd))` is recursively re-inserted with the shared CN; and
inserting `[100,200,cn=2]` then `[150,250,cn=2]` yields exactly
`[100,250,cn=2]`. -/
theorem merge_equal_cn_union (gas : Nat) (starts ends cns : List Int) (s e cn : Int)
    (hov : bisect_right ends s ≠ bisect_left starts e)
    (hcn : cns.getD (bisect_right ends s) 0 = cn) :
    (merge_overlapping_cnvs (gas + 1) starts ends cns s e cn =
      merge_overlapping_cnvs gas
        (pyPopAt starts (bisect_right ends s))
        (pyPopAt ends (bisect_right ends s))
        (pyPopAt cns (bisect_right ends s))
        (min (starts.getD (bisect_right ends s) 0) s)
        (max (ends.getD (bisect_right ends s) 0) e) cn) ∧
    runAdds 20 SampleCNVs.init [("1", 100, 200, 2), ("1", 150, 250, 2)]
      = .ok (some { starts := [("1", [100])], ends := [("1", [250])],
                    cn_states := [("1", [2])], len_seg := [("1", 1)],
                    is_chr_prefixed := some false, ploidy := none }) := by
  refine ⟨?_, rfl⟩
  have h1 : (if starts.getD (bisect_right ends s) 0 < s
      then starts.getD (bisect_right ends s) 0 else s)
      = min (starts.getD (bisect_right ends s) 0) s := by
    rcases lt_or_ge (starts.getD (bisect_right ends s) 0) s with h | h
    · rw [if_pos h, min_eq_left (le_of_lt h)]
    · rw [if_neg (not_lt.mpr h), min_eq_right h]
  have h2 : (if ends.getD (bisect_right ends s) 0 > e
      then ends.getD (bisect_right ends s) 0 else e)
      = max (ends.getD (bisect_right ends s) 0) e := by
    rcases lt_or_ge e (ends.getD (bisect_right ends s) 0) with h | h
    · rw [if_pos h, max_eq_left (le_of_lt h)]
    · rw [if_neg (not_lt.mpr h), max_eq_right h]
  simp only [merge_overlapping_cnvs]
  rw [if_neg hov, if_pos hcn, h1, h2]

/-- C8 witness: the merge example, and the union step at the concrete
first-overlap state. -/
theorem merge_equal_cn_union_witness :
    merge_overlapping_cnvs 6 [100] [200] [2] 150 250 2
      = merge_overlapping_cnvs 5 [] [] [] 100 250 2 :=
  (merge_equal_cn_union 5 [100] [200] [2] 150 250 2 (by decide) (by decide)).1

/-- C4 counterexample: the inserted segment `[150,200,cn=2]` and the
existing `[100,300,cn=1]` satisfy the claim's condition (one `cn ≤ 2`,
the other `cn ≥ 2`, values unequal), but the code resolves them as
same-family (both `≤ 2`): the more extreme old deletion wins and the new
`cn=2` segment is swallowed whole instead of both values being kept. -/
theorem mixed_family_condition_counterexample :
    runAdds 20 SampleCNVs.init [("1", 100, 300, 1), ("1", 150, 200, 2)]
      = .ok (some { starts := [("1", [100])], ends := [("1", [300])],
                    cn_states := [("1", [1])], len_seg := [("1", 1)],
                    is_chr_prefixed := some false, ploidy := none }) := rfl

/-- C4 (amended): when the inserted segment overlaps an existing segment
with one `cn < 2` and the other `cn > 2` (strictly mixed family), both
CN values are kept: if the old span is at least the new span, the old
segment is truncated around the new one into up to two remaining pieces
carrying the old state and the new segment is re-inserted unchanged;
otherwise the new segment is truncated around the old one; concretely,
inserting `[100,300,cn=3]` then `[150,200,cn=1]` yields exactly
`[100,150,cn=3], [150,200,cn=1], [200,300,cn=3]`. -/
theorem merge_mixed_family_split (gas : Nat) (starts ends cns : List Int) (s e cn : Int)
    (hov : bisect_right ends s ≠ bisect_left starts e)
    (hmix : (cn < 2 ∧ cns.getD (bisect_right ends s) 0 > 2) ∨
            (cn > 2 ∧ cns.getD (bisect_right ends s) 0 < 2)) :
    (¬ (ends.getD (bisect_right ends s) 0 - starts.getD (bisect_right ends s) 0 < e - s) →
      merge_overlapping_cnvs (gas + 1) starts ends cns s e cn =
        merge_overlapping_cnvs gas
          (reduceOldLists starts ends cns (bisect_right ends s) s e
            (starts.getD (bisect_right ends s) 0) (ends.getD (bisect_right ends s) 0)
            (cns.getD (bisect_right ends s) 0)).1
          (reduceOldLists starts ends cns (bisect_right ends s) s e
            (starts.getD (bisect_right ends s) 0) (ends.getD (bisect_right ends s) 0)
            (cns.getD (bisect_right ends s) 0)).2.1
          (reduceOldLists starts ends cns (bisect_right ends s) s e
            (starts.getD (bisect_right ends s) 0) (ends.getD (bisect_right ends s) 0)
            (cns.getD (bisect_right ends s) 0)).2.2
          s e cn) ∧
    (ends.getD (bisect_right ends s) 0 - starts.getD (bisect_right ends s) 0 < e - s →
      merge_overlapping_cnvs (gas + 1) starts ends cns s e cn =
        reduceNewResult gas starts ends cns s e cn
          (starts.getD (bisect_right ends s) 0) (ends.getD (bisect_right ends s) 0)) ∧
    runAdds 20 SampleCNVs.init [("1", 100, 300, 3), ("1", 150, 200, 1)]
      = .ok (some profMixedSplit) := by
  have hne : ¬ cns.getD (bisect_right ends s) 0 = cn := by omega
  have hdel : ¬ (cn ≤ 2 ∧ cns.getD (bisect_right ends s) 0 ≤ 2) := by omega
  have hgain : ¬ (cn ≥ 2 ∧ cns.getD (bisect_right ends s) 0 ≥ 2) := by omega
  refine ⟨?_, ?_, rfl⟩
  · intro hspan
    simp only [merge_overlapping_cnvs]
    rw [if_neg hov, if_neg hne, if_neg hdel, if_neg hgain, if_neg hspan]
    rfl
  · intro hspan
    simp only [merge_overlapping_cnvs]
    rw [if_neg hov, if_neg hne, if_neg hdel, if_neg hgain, if_pos hspan]
    rfl

/-- C4 (amended) witness: the concrete second insert of the example at
its first-overlap state (old span 200 ≥ new span 50: the old `cn=3`
segment is split around the new `cn=1` segment, which is re-inserted
unchanged). -/
theorem merge_mixed_family_split_witness :
    merge_overlapping_cnvs 6 [100] [300] [3] 150 200 1
      = merge_overlapping_cnvs 5 [100, 200] [150, 300] [3, 3] 150 200 1 :=
  (merge_mixed_family_split 5 [100] [300] [3] 150 200 1 (by decide)
    (Or.inl (by decide))).1 (by decide)

/-- `list.insert` grows the list by one. -/
theorem pyInsertAt_length (l : List Int) (i : Nat) (x : Int) :
    (pyInsertAt l i x).length = l.length + 1 := by
  simp [pyInsertAt]
  omega

/-- `list.insert` keeps in-range entries left of the insertion point. -/
theorem pyInsertAt_getD_lt (l : List Int) (i : Nat) (x : Int) (j : Nat)
    (hj : j < i) (hjl : j < l.length) :
    (pyInsertAt l i x).getD j 0 = l.getD j 0 := by
  induction l generalizing i j with
  | nil => simp at hjl
  | cons a l ih =>
    cases i with
    | zero => omega
    | succ i =>
      rw [show pyInsertAt (a :: l) (i + 1) x = a :: pyInsertAt l i x from rfl]
      cases j with
      | zero => rfl
      | succ j =>
        rw [List.getD_cons_succ, List.getD_cons_succ]
        exact ih i j (by omega) (by simpa using hjl)

/-- `list.insert` puts the new element at the insertion point. -/
theorem pyInsertAt_getD_self (l : List Int) (i : Nat) (x : Int)
    (h : i ≤ l.length) :
    (pyInsertAt l i x).getD i 0 = x := by
  induction l generalizing i with
  | nil =>
    have : i = 0 := by simpa using h
    subst this; rfl
  | cons a l ih =>
    cases i with
    | zero => rfl
    | succ i =>
      rw [show pyInsertAt (a :: l) (i + 1) x = a :: pyInsertAt l i x from rfl,
        List.getD_cons_succ]
      exact ih i (by simpa using h)

/-- `list.insert` shifts entries right of the insertion point by one. -/
theorem pyInsertAt_getD_gt (l : List Int) (i : Nat) (x : Int) (j : Nat)
    (hj : i < j) :
    (pyInsertAt l i x).getD j 0 = l.getD (j - 1) 0 := by
  induction l generalizing i j with
  | nil =>
    have h1 : pyInsertAt [] i x = [x] := by
      simp [pyInsertAt]
    rw [h1]
    cases j with
    | zero => omega
    | succ j => simp [List.getD]
  | cons a l ih =>
    cases i with
    | zero =>
      rw [show pyInsertAt (a :: l) 0 x = x :: a :: l from rfl]
      cases j with
      | zero => omega
      | succ j => simp [List.getD_cons_succ]
    | succ i =>
      rw [show pyInsertAt (a :: l) (i + 1) x = a :: pyInsertAt l i x from rfl]
      cases j with
      | zero => omega
      | succ j =>
        rw [List.getD_cons_succ, ih i j (by omega)]
        cases j with
        | zero => omega
        | succ j => simp [List.getD_cons_succ]

/-- `list.pop` shrinks an in-range list by one. -/
theorem pyPopAt_length (l : List Int) (i : Nat) (h : i < l.length) :
    (pyPopAt l i).length = l.length - 1 := by
  simp [pyPopAt]
  omega

/-- `list.pop` at an out-of-range index is the identity (never happens in
the in-range usage of the source). -/
theorem pyPopAt_of_ge (l : List Int) (i : Nat) (h : l.length ≤ i) :
    pyPopAt l i = l := by
  simp [pyPopAt, List.take_of_length_le h, List.drop_eq_nil_of_le (Nat.le_succ_of_le h)]

/-- `list.pop` keeps entries left of the removal point. -/
theorem pyPopAt_getD_lt (l : List Int) (i : Nat) (j : Nat) (hj : j < i) :
    (pyPopAt l i).getD j 0 = l.getD j 0 := by
  induction l generalizing i j with
  | nil => simp [pyPopAt]
  | cons a l ih =>
    cases i with
    | zero => omega
    | succ i =>
      rw [show pyPopAt (a :: l) (i + 1) = a :: pyPopAt l i from rfl]
      cases j with
      | zero => rfl
      | succ j => rw [List.getD_cons_succ, List.getD_cons_succ]; exact ih i j (by omega)

/-- `list.pop` shifts entries right of the removal point down by one. -/
theorem pyPopAt_getD_ge (l : List Int) (i : Nat) (j : Nat)
    (hi : i < l.length) (hj : i ≤ j) :
    (pyPopAt l i).getD j 0 = l.getD (j + 1) 0 := by
  induction l generalizing i j with
  | nil => simp at hi
  | cons a l ih =>
    cases i with
    | zero =>
      rw [show pyPopAt (a :: l) 0 = l from by simp [pyPopAt], List.getD_cons_succ]
    | succ i =>
      rw [show pyPopAt (a :: l) (i + 1) = a :: pyPopAt l i from rfl]
      cases j with
      | zero => omega
      | succ j =>
        rw [List.getD_cons_succ, List.getD_cons_succ]
        exact ih i j (by simpa using hi) (by omega)

/-- Correctness of the `bisect_right` loop on a sorted list. -/
theorem bisectRightGo_spec (a : List Int) (x : Int)
    (hs : ∀ i j, i ≤ j → j < a.length → a.getD i 0 ≤ a.getD j 0) :
    ∀ (gas lo hi : Nat), hi - lo ≤ gas → lo ≤ hi → hi ≤ a.length →
      (∀ i, i < lo → a.getD i 0 ≤ x) →
      (∀ i, hi ≤ i → i < a.length → x < a.getD i 0) →
      lo ≤ bisectRightGo a x gas lo hi ∧ bisectRightGo a x gas lo hi ≤ hi ∧
      (∀ i, i < bisectRightGo a x gas lo hi → a.getD i 0 ≤ x) ∧
      (∀ i, bisectRightGo a x gas lo hi ≤ i → i < a.length → x < a.getD i 0) := by
  intro gas
  induction gas with
  | zero =>
    intro lo hi hgas hlh hha hlow hhigh
    have heq : lo = hi := by omega
    subst heq
    exact ⟨le_refl _, le_refl _, hlow, hhigh⟩
  | succ gas ih =>
    intro lo hi hgas hlh hha hlow hhigh
    simp only [bisectRightGo]
    by_cases hlt : lo < hi
    · rw [if_pos hlt]
      have hmlo : lo ≤ (lo + hi) / 2 := by omega
      have hmhi : (lo + hi) / 2 < hi := by omega
      by_cases hx : x < a.getD ((lo + hi) / 2) 0
      · rw [if_pos hx]
        obtain ⟨h1, h2, h3, h4⟩ := ih lo ((lo + hi) / 2) (by omega) (by omega) (by omega)
          hlow (fun i him hia => lt_of_lt_of_le hx (hs _ i him hia))
        exact ⟨h1, by omega, h3, h4⟩
      · rw [if_neg hx]
        obtain ⟨h1, h2, h3, h4⟩ := ih ((lo + hi) / 2 + 1) hi (by omega) (by omega) hha
          (fun i him => le_trans (hs i _ (by omega) (by omega)) (not_lt.mp hx))
          hhigh
        exact ⟨by omega, h2, h3, h4⟩
    · rw [if_neg hlt]
      have heq : lo = hi := by omega
      exact ⟨le_refl _, by omega, hlow, fun i hio => hhigh i (by omega)⟩

/-- Correctness of the `bisect_left` loop on a sorted list. -/
theorem bisectLeftGo_spec (a : List Int) (x : Int)
    (hs : ∀ i j, i ≤ j → j < a.length → a.getD i 0 ≤ a.getD j 0) :
    ∀ (gas lo hi : Nat), hi - lo ≤ gas → lo ≤ hi → hi ≤ a.length →
      (∀ i, i < lo → a.getD i 0 < x) →
      (∀ i, hi ≤ i → i < a.length → x ≤ a.getD i 0) →
      lo ≤ bisectLeftGo a x gas lo hi ∧ bisectLeftGo a x gas lo hi ≤ hi ∧
      (∀ i, i < bisectLeftGo a x gas lo hi → a.getD i 0 < x) ∧
      (∀ i, bisectLeftGo a x gas lo hi ≤ i → i < a.length → x ≤ a.getD i 0) := by
  intro gas
  induction gas with
  | zero =>
    intro lo hi hgas hlh hha hlow hhigh
    have heq : lo = hi := by omega
    subst heq
    exact ⟨le_refl _, le_refl _, hlow, hhigh⟩
  | succ gas ih =>
    intro lo hi hgas hlh hha hlow hhigh
    simp only [bisectLeftGo]
    by_cases hlt : lo < hi
    · rw [if_pos hlt]
      have hmlo : lo ≤ (lo + hi) / 2 := by omega
      have hmhi : (lo + hi) / 2 < hi := by omega
      by_cases hx : a.getD ((lo + hi) / 2) 0 < x
      · rw [if_pos hx]
        obtain ⟨h1, h2, h3, h4⟩ := ih ((lo + hi) / 2 + 1) hi (by omega) (by omega) hha
          (fun i him => lt_of_le_of_lt (hs i _ (by omega) (by omega)) hx)
          hhigh
        exact ⟨by omega, h2, h3, h4⟩
      · rw [if_neg hx]
        obtain ⟨h1, h2, h3, h4⟩ := ih lo ((lo + hi) / 2) (by omega) (by omega) (by omega)
          hlow (fun i him hia => le_trans (not_lt.mp hx) (hs _ i him hia))
        exact ⟨h1, by omega, h3, h4⟩
    · rw [if_neg hlt]
      exact ⟨le_refl _, by omega, hlow, fun i hio => hhigh i (by omega)⟩

/-- `bisect_right` on a sorted list: entries left of the result are
`≤ x`, entries at or right of it are `> x`. -/
theorem bisect_right_spec (a : List Int) (x : Int)
    (hs : ∀ i j, i ≤ j → j < a.length → a.getD i 0 ≤ a.getD j 0) :
    bisect_right a x ≤ a.length ∧
    (∀ i, i < bisect_right a x → a.getD i 0 ≤ x) ∧
    (∀ i, bisect_right a x ≤ i → i < a.length → x < a.getD i 0) := by
  obtain ⟨h1, h2, h3, h4⟩ := bisectRightGo_spec a x hs a.length 0 a.length
    (by omega) (by omega) (le_refl _) (by omega) (by omega)
  exact ⟨h2, h3, h4⟩

/-- `bisect_left` on a sorted list: entries left of the result are
`< x`, entries at or right of it are `≥ x`. -/
theorem bisect_left_spec (a : List Int) (x : Int)
    (hs : ∀ i j, i ≤ j → j < a.length → a.getD i 0 ≤ a.getD j 0) :
    bisect_left a x ≤ a.length ∧
    (∀ i, i < bisect_left a x → a.getD i 0 < x) ∧
    (∀ i, bisect_left a x ≤ i → i < a.length → x ≤ a.getD i 0) := by
  obtain ⟨h1, h2, h3, h4⟩ := bisectLeftGo_spec a x hs a.length 0 a.length
    (by omega) (by omega) (le_refl _) (by omega) (by omega)
  exact ⟨h2, h3, h4⟩

/-- Adjacent monotonicity extends to all index pairs. -/
theorem mono_of_adjacent (f : Nat → Int) (n : Nat)
    (hadj : ∀ i, i + 1 < n → f i ≤ f (i + 1)) :
    ∀ i j, i ≤ j → j < n → f i ≤ f j := by
  intro i j hij hjn
  induction j with
  | zero =>
    have : i = 0 := by omega
    subst this; exact le_refl _
  | succ j ihj =>
    rcases Nat.lt_or_ge i (j + 1) with h | h
    · exact le_trans (ihj (by omega) (by omega)) (hadj j hjn)
    · have : i = j + 1 := by omega
      subst this; exact le_refl _

/-- Under the invariant, the start positions are monotone. -/
theorem chromInv_starts_mono {starts ends cns : List Int}
    (h : ChromInv starts ends cns) :
    ∀ i j, i ≤ j → j < starts.length → starts.getD i 0 ≤ starts.getD j 0 := by
  obtain ⟨hlen1, hlen2, hpos, hadj⟩ := h
  exact mono_of_adjacent _ _ (fun i hi =>
    le_trans (le_of_lt (hpos i (by omega))) (hadj i hi))

/-- Under the invariant, the end positions are monotone. -/
theorem chromInv_ends_mono {starts ends cns : List Int}
    (h : ChromInv starts ends cns) :
    ∀ i j, i ≤ j → j < ends.length → ends.getD i 0 ≤ ends.getD j 0 := by
  obtain ⟨hlen1, hlen2, hpos, hadj⟩ := h
  refine mono_of_adjacent _ _ (fun i hi => ?_)
  rw [← hlen1] at hi
  exact le_trans (hadj i hi) (le_of_lt (hpos (i + 1) (by omega)))

/-- Inserting a fresh segment whose span sits between its neighbours
preserves the invariant. -/
theorem chromInv_insert (starts ends cns : List Int) (r : Nat) (s e cn : Int)
    (h : ChromInv starts ends cns) (hr : r ≤ starts.length) (hse : s < e)
    (hlow : ∀ i, i < r → ends.getD i 0 ≤ s)
    (hhigh : ∀ i, r ≤ i → i < starts.length → e ≤ starts.getD i 0) :
    ChromInv (pyInsertAt starts r s) (pyInsertAt ends r e) (pyInsertAt cns r cn) := by
  obtain ⟨hlen1, hlen2, hpos, hadj⟩ := h
  refine ⟨by simp [pyInsertAt_length, hlen1], by simp [pyInsertAt_length, hlen2], ?_, ?_⟩
  · intro j hj
    rw [pyInsertAt_length] at hj
    rcases Nat.lt_trichotomy j r with hlt | heq | hgt
    · rw [pyInsertAt_getD_lt _ _ _ _ hlt (by omega),
        pyInsertAt_getD_lt _ _ _ _ hlt (by omega)]
      exact hpos j (by omega)
    · subst heq
      rw [pyInsertAt_getD_self _ _ _ hr, pyInsertAt_getD_self _ _ _ (by omega)]
      exact hse
    · rw [pyInsertAt_getD_gt _ _ _ _ hgt, pyInsertAt_getD_gt _ _ _ _ hgt]
      exact hpos (j - 1) (by omega)
  · intro j hj
    rw [pyInsertAt_length] at hj
    rcases Nat.lt_trichotomy (j + 1) r with hlt | heq | hgt
    · rw [pyInsertAt_getD_lt _ _ _ _ (by omega) (by omega),
        pyInsertAt_getD_lt _ _ _ _ hlt (by omega)]
      exact hadj j (by omega)
    · rw [pyInsertAt_getD_lt _ _ _ _ (by omega) (by omega), heq,
        pyInsertAt_getD_self _ _ _ hr]
      exact hlow j (by omega)
    · rcases Nat.lt_or_ge r j with hgt2 | hge2
      · rw [pyInsertAt_getD_gt _ _ _ _ hgt2, pyInsertAt_getD_gt _ _ _ _ (by omega)]
        have hj1 : j - 1 + 1 = j := by omega
        have := hadj (j - 1) (by omega)
        rw [hj1] at this
        have hj2 : j + 1 - 1 = j := by omega
        rw [hj2]
        exact this
      · have : j = r := by omega
        subst this
        rw [pyInsertAt_getD_self _ _ _ (by omega), pyInsertAt_getD_gt _ _ _ _ (by omega)]
        have hj2 : j + 1 - 1 = j := by omega
        rw [hj2]
        exact hhigh j (le_refl _) (by omega)

/-- Removing a segment preserves the invariant. -/
theorem chromInv_pop (starts ends cns : List Int) (b : Nat)
    (h : ChromInv starts ends cns) :
    ChromInv (pyPopAt starts b) (pyPopAt ends b) (pyPopAt cns b) := by
  obtain ⟨hlen1, hlen2, hpos, hadj⟩ := h
  by_cases hb : b < starts.length
  · refine ⟨?_, ?_, ?_, ?_⟩
    · rw [pyPopAt_length _ _ hb, pyPopAt_length _ _ (by omega), hlen1]
    · rw [pyPopAt_length _ _ hb, pyPopAt_length _ _ (by omega), hlen2]
    · intro j hj
      rw [pyPopAt_length _ _ hb] at hj
      rcases Nat.lt_or_ge j b with hlt | hge
      · rw [pyPopAt_getD_lt _ _ _ hlt, pyPopAt_getD_lt _ _ _ hlt]
        exact hpos j (by omega)
      · rw [pyPopAt_getD_ge _ _ _ hb hge, pyPopAt_getD_ge _ _ _ (by omega) hge]
        exact hpos (j + 1) (by omega)
    · intro j hj
      rw [pyPopAt_length _ _ hb] at hj
      rcases Nat.lt_trichotomy (j + 1) b with hlt | heq | hgt
      · rw [pyPopAt_getD_lt _ _ _ (by omega), pyPopAt_getD_lt _ _ _ hlt]
        exact hadj j (by omega)
      · rw [pyPopAt_getD_lt _ _ _ (by omega), pyPopAt_getD_ge _ _ _ (by omega) (by omega)]
        subst heq
        refine le_of_lt ?_
        calc ends.getD j 0 ≤ starts.getD (j + 1) 0 := hadj j (by omega)
          _ < ends.getD (j + 1) 0 := hpos (j + 1) (by omega)
          _ ≤ starts.getD (j + 1 + 1) 0 := hadj (j + 1) (by omega)
      · rw [pyPopAt_getD_ge _ _ _ (by omega) (by omega),
          pyPopAt_getD_ge _ _ _ hb (by omega)]
        exact hadj (j + 1) (by omega)
  · rw [pyPopAt_of_ge _ _ (by omega), pyPopAt_of_ge _ _ (by omega),
      pyPopAt_of_ge _ _ (by omega)]
    exact ⟨hlen1, hlen2, hpos, hadj⟩

/-- When the bisect bounds disagree, the first overlap index is in range
and the old segment genuinely overlaps the new span `[s, e)`. -/
theorem merge_overlap_facts (starts ends cns : List Int) (s e : Int)
    (h : ChromInv starts ends cns) (hse : s < e)
    (hov : bisect_right ends s ≠ bisect_left starts e) :
    bisect_right ends s < starts.length ∧
    s < ends.getD (bisect_right ends s) 0 ∧
    starts.getD (bisect_right ends s) 0 < e := by
  have hlen1 := h.1
  have hpos := h.2.2.1
  obtain ⟨hr1, hr2, hr3⟩ := bisect_right_spec ends s (chromInv_ends_mono h)
  obtain ⟨hl1, hl2, hl3⟩ := bisect_left_spec starts e (chromInv_starts_mono h)
  have hble : bisect_right ends s ≤ bisect_left starts e := by
    by_contra hc
    push_neg at hc
    have h1 : ends.getD (bisect_left starts e) 0 ≤ s := hr2 _ hc
    have h2 : e ≤ starts.getD (bisect_left starts e) 0 :=
      hl3 _ (le_refl _) (by omega)
    have h3 : starts.getD (bisect_left starts e) 0
        < ends.getD (bisect_left starts e) 0 := hpos _ (by omega)
    omega
  have hblt : bisect_right ends s < bisect_left starts e :=
    lt_of_le_of_ne hble hov
  have hblen : bisect_right ends s < starts.length := by omega
  exact ⟨hblen, hr3 _ (le_refl _) (by omega), hl2 _ hblt⟩

/-- Splitting the first overlapping (old) segment around the new span
`[s, e)` and re-inserting its valid pieces preserves the invariant. -/
theorem chromInv_reduceOldLists (starts ends cns : List Int) (b : Nat) (s e oldCN : Int)
    (h : ChromInv starts ends cns) (hb : b < starts.length) (hse : s < e)
    (hsOld : s < ends.getD b 0) (hOlde : starts.getD b 0 < e) :
    ChromInv
      (reduceOldLists starts ends cns b s e (starts.getD b 0) (ends.getD b 0) oldCN).1
      (reduceOldLists starts ends cns b s e (starts.getD b 0) (ends.getD b 0) oldCN).2.1
      (reduceOldLists starts ends cns b s e (starts.getD b 0) (ends.getD b 0) oldCN).2.2 := by
  have hlen1 := h.1
  have hpos := h.2.2.1
  have hadj := h.2.2.2
  have hsm := chromInv_starts_mono h
  have hem := chromInv_ends_mono h
  have hpop : ChromInv (pyPopAt starts b) (pyPopAt ends b) (pyPopAt cns b) :=
    chromInv_pop _ _ _ b h
  simp only [reduceOldLists]
  by_cases hQ : e < ends.getD b 0
  · simp only [if_pos hQ]
    have hmid : ChromInv (pyInsertAt (pyPopAt starts b) b e)
        (pyInsertAt (pyPopAt ends b) b (ends.getD b 0))
        (pyInsertAt (pyPopAt cns b) b oldCN) := by
      refine chromInv_insert _ _ _ b _ _ _ hpop (by rw [pyPopAt_length _ _ hb]; omega) hQ ?_ ?_
      · intro i hi
        rw [pyPopAt_getD_lt _ _ _ hi]
        have h1 : ends.getD i 0 ≤ starts.getD (i + 1) 0 := hadj i (by omega)
        have h2 : starts.getD (i + 1) 0 ≤ starts.getD b 0 := hsm (i + 1) b (by omega) hb
        omega
      · intro i hi1 hi2
        rw [pyPopAt_length _ _ hb] at hi2
        rw [pyPopAt_getD_ge _ _ _ hb hi1]
        have h1 : ends.getD b 0 ≤ starts.getD (b + 1) 0 := hadj b (by omega)
        have h2 : starts.getD (b + 1) 0 ≤ starts.getD (i + 1) 0 :=
          hsm (b + 1) (i + 1) (by omega) (by omega)
        omega
    by_cases hP : starts.getD b 0 < s
    · simp only [if_pos hP]
      refine chromInv_insert _ _ _ b _ _ _ hmid
        (by rw [pyInsertAt_length, pyPopAt_length _ _ hb]; omega) hP ?_ ?_
      · intro i hi
        rw [pyInsertAt_getD_lt _ _ _ _ hi (by rw [pyPopAt_length _ _ (show b < ends.length by omega)]; omega),
          pyPopAt_getD_lt _ _ _ hi]
        have h1 : ends.getD i 0 ≤ starts.getD (i + 1) 0 := hadj i (by omega)
        have h2 : starts.getD (i + 1) 0 ≤ starts.getD b 0 := hsm (i + 1) b (by omega) hb
        omega
      · intro i hi1 hi2
        rw [pyInsertAt_length, pyPopAt_length _ _ hb] at hi2
        rcases Nat.eq_or_lt_of_le hi1 with heq | hgt
        · rw [← heq, pyInsertAt_getD_self _ _ _ (by rw [pyPopAt_length _ _ hb]; omega)]
          omega
        · rw [pyInsertAt_getD_gt _ _ _ _ hgt, pyPopAt_getD_ge _ _ _ hb (by omega)]
          have h1 : ends.getD b 0 ≤ starts.getD (b + 1) 0 := hadj b (by omega)
          have h2 : starts.getD (b + 1) 0 ≤ starts.getD (i - 1 + 1) 0 :=
            hsm (b + 1) (i - 1 + 1) (by omega) (by omega)
          omega
    · simp only [if_neg hP]
      exact hmid
  · simp only [if_neg hQ]
    by_cases hP : starts.getD b 0 < s
    · simp only [if_pos hP]
      refine chromInv_insert _ _ _ b _ _ _ hpop (by rw [pyPopAt_length _ _ hb]; omega) hP ?_ ?_
      · intro i hi
        rw [pyPopAt_getD_lt _ _ _ hi]
        have h1 : ends.getD i 0 ≤ starts.getD (i + 1) 0 := hadj i (by omega)
        have h2 : starts.getD (i + 1) 0 ≤ starts.getD b 0 := hsm (i + 1) b (by omega) hb
        omega
      · intro i hi1 hi2
        rw [pyPopAt_length _ _ hb] at hi2
        rw [pyPopAt_getD_ge _ _ _ hb hi1]
        have h1 : ends.getD b 0 ≤ starts.getD (b + 1) 0 := hadj b (by omega)
        have h2 : starts.getD (b + 1) 0 ≤ starts.getD (i + 1) 0 :=
          hsm (b + 1) (i + 1) (by omega) (by omega)
        omega
    · simp only [if_neg hP]
      exact hpop

/-- C1 core: `merge_overlapping_cnvs` preserves the sorted,
non-overlapping invariant whenever it completes. -/
theorem merge_preserves_chromInv :
    ∀ (gas : Nat) (starts ends cns : List Int) (s e cn : Int)
      (out : List Int × List Int × List Int),
      ChromInv starts ends cns → s < e →
      merge_overlapping_cnvs gas starts ends cns s e cn = some out →
      ChromInv out.1 out.2.1 out.2.2 := by
  intro gas
  induction gas with
  | zero =>
    intro starts ends cns s e cn out hinv hse hmerge
    exact absurd hmerge (by simp [merge_overlapping_cnvs])
  | succ gas ih =>
    intro starts ends cns s e cn out hinv hse hmerge
    simp only [merge_overlapping_cnvs] at hmerge
    by_cases hov : bisect_right ends s = bisect_left starts e
    · rw [if_pos hov] at hmerge
      cases hmerge
      obtain ⟨hr1, hr2, hr3⟩ := bisect_right_spec ends s (chromInv_ends_mono hinv)
      obtain ⟨hl1, hl2, hl3⟩ := bisect_left_spec starts e (chromInv_starts_mono hinv)
      exact chromInv_insert _ _ _ _ _ _ _ hinv (by rw [hinv.1]; exact hr1) hse hr2
        (fun i hi1 hi2 => hl3 i (hov ▸ hi1) hi2)
    · rw [if_neg hov] at hmerge
      obtain ⟨hblen, hsOld, hOlde⟩ := merge_overlap_facts starts ends cns s e hinv hse hov
      have hRN : (match (if s < starts.getD (bisect_right ends s) 0 then
              merge_overlapping_cnvs gas starts ends cns s (starts.getD (bisect_right ends s) 0) cn
            else some (starts, ends, cns)) with
          | none => none
          | some (s1, e1, c1) =>
            if ends.getD (bisect_right ends s) 0 < e then
              merge_overlapping_cnvs gas s1 e1 c1 (ends.getD (bisect_right ends s) 0) e cn
            else some (s1, e1, c1)) = some out → ChromInv out.1 out.2.1 out.2.2 := by
        intro hm
        cases h1 : (if s < starts.getD (bisect_right ends s) 0 then
            merge_overlapping_cnvs gas starts ends cns s (starts.getD (bisect_right ends s) 0) cn
          else some (starts, ends, cns)) with
        | none => rw [h1] at hm; exact absurd hm (by simp)
        | some t1 =>
          obtain ⟨s1, e1, c1⟩ := t1
          have hinv1 : ChromInv s1 e1 c1 := by
            by_cases hp1 : s < starts.getD (bisect_right ends s) 0
            · rw [if_pos hp1] at h1
              exact ih _ _ _ _ _ _ _ hinv hp1 h1
            · rw [if_neg hp1] at h1
              cases h1
              exact hinv
          rw [h1] at hm
          simp only at hm
          by_cases hp2 : ends.getD (bisect_right ends s) 0 < e
          · rw [if_pos hp2] at hm
            exact ih _ _ _ _ _ _ _ hinv1 hp2 hm
          · rw [if_neg hp2] at hm
            cases hm
            exact hinv1
      have hRO : merge_overlapping_cnvs gas
            (reduceOldLists starts ends cns (bisect_right ends s) s e
              (starts.getD (bisect_right ends s) 0) (ends.getD (bisect_right ends s) 0)
              (cns.getD (bisect_right ends s) 0)).1
            (reduceOldLists starts ends cns (bisect_right ends s) s e
              (starts.getD (bisect_right ends s) 0) (ends.getD (bisect_right ends s) 0)
              (cns.getD (bisect_right ends s) 0)).2.1
            (reduceOldLists starts ends cns (bisect_right ends s) s e
              (starts.getD (bisect_right ends s) 0) (ends.getD (bisect_right ends s) 0)
              (cns.getD (bisect_right ends s) 0)).2.2 s e cn = some out →
          ChromInv out.1 out.2.1 out.2.2 := by
        intro hm
        exact ih _ _ _ _ _ _ _
          (chromInv_reduceOldLists starts ends cns (bisect_right ends s) s e
            (cns.getD (bisect_right ends s) 0) hinv hblen hse hsOld hOlde) hse hm
      by_cases hcn : cns.getD (bisect_right ends s) 0 = cn
      · rw [if_pos hcn] at hmerge
        refine ih _ _ _ _ _ _ _ (chromInv_pop _ _ _ _ hinv) ?_ hmerge
        split_ifs <;> omega
      · rw [if_neg hcn] at hmerge
        by_cases hd1 : cn ≤ 2 ∧ cns.getD (bisect_right ends s) 0 ≤ 2
        · rw [if_pos hd1] at hmerge
          by_cases hd2 : cns.getD (bisect_right ends s) 0 < cn
          · rw [if_pos hd2] at hmerge
            exact hRN hmerge
          · rw [if_neg hd2] at hmerge
            exact hRO hmerge
        · rw [if_neg hd1] at hmerge
          by_cases hd3 : cn ≥ 2 ∧ cns.getD (bisect_right ends s) 0 ≥ 2
          · rw [if_pos hd3] at hmerge
            by_cases hd4 : cns.getD (bisect_right ends s) 0 > cn
            · rw [if_pos hd4] at hmerge
              exact hRN hmerge
            · rw [if_neg hd4] at hmerge
              exact hRO hmerge
          · rw [if_neg hd3] at hmerge
            by_cases hd5 : ends.getD (bisect_right ends s) 0
                - starts.getD (bisect_right ends s) 0 < e - s
            · rw [if_pos hd5] at hmerge
              exact hRN hmerge
            · rw [if_neg hd5] at hmerge
              exact hRO hmerge

/-- Reading a dict after a write: the written key returns the new value,
all other keys are unaffected. -/
theorem dictGet_dictSet {α : Type} (d : List (String × α)) (k q : String) (v : α) :
    dictGet (dictSet d k v) q = if k = q then some v else dictGet d q := by
  induction d with
  | nil => simp [dictGet, dictSet]
  | cons hd tl ih =>
    obtain ⟨k1, v1⟩ := hd
    by_cases h1 : k1 = k
    · subst h1
      by_cases h2 : k1 = q
      · subst h2; simp [dictGet, dictSet]
      · simp [dictGet, dictSet, h2]
    · by_cases h2 : k1 = q
      · subst h2
        have hk : ¬ k = k1 := fun hh => h1 hh.symm
        simp [dictGet, dictSet, h1, hk]
      · simp [dictGet, dictSet, h1, h2, ih]

/-- A single fresh segment satisfies the invariant. -/
theorem chromInv_singleton (s e cn : Int) (hse : s < e) :
    ChromInv [s] [e] [cn] := by
  refine ⟨rfl, rfl, ?_, ?_⟩
  · intro i hi
    have : i = 0 := by simpa using hi
    subst this
    simpa using hse
  · intro i hi
    simp at hi

/-- The empty segment lists satisfy the invariant. -/
theorem chromInv_nil : ChromInv [] [] [] := by
  refine ⟨rfl, rfl, ?_, ?_⟩ <;> intro i hi <;> simp at hi

/-- A fresh sample satisfies the invariant on every chromosome. -/
theorem sampleInv_init : SampleInv SampleCNVs.init := fun _ => chromInv_nil

/-- `SampleCNVs.add` preserves the invariant on every chromosome. -/
theorem add_preserves_sampleInv (self : SampleCNVs) (gas : Nat) (chrom : String)
    (s e cn : Int) (self' : SampleCNVs)
    (hinv : SampleInv self)
    (hadd : self.add gas chrom s e cn = .ok (some self')) :
    SampleInv self' := by
  simp only [SampleCNVs.add] at hadd
  by_cases h1 : e ≤ s
  · rw [if_pos h1] at hadd
    by_cases h2 : s = e
    · rw [if_pos h2] at hadd
      cases hadd
      exact hinv
    · rw [if_neg h2] at hadd
      exact absurd hadd (by simp)
  · rw [if_neg h1] at hadd
    have hse : s < e := by omega
    by_cases h3 : (dictGet self.len_seg (pyReplace chrom "chr" "")).isNone = true
    · rw [if_pos h3] at hadd
      cases hadd
      intro ch
      simp only [SampleCNVs.segsOf, dictGet_dictSet]
      by_cases hch : pyReplace chrom "chr" "" = ch
      · rw [if_pos hch, if_pos hch, if_pos hch]
        exact chromInv_singleton s e cn hse
      · rw [if_neg hch, if_neg hch, if_neg hch]
        exact hinv ch
    · rw [if_neg h3] at hadd
      cases hm : merge_overlapping_cnvs gas
          ((dictGet self.starts (pyReplace chrom "chr" "")).getD [])
          ((dictGet self.ends (pyReplace chrom "chr" "")).getD [])
          ((dictGet self.cn_states (pyReplace chrom "chr" "")).getD []) s e cn with
      | none =>
        rw [hm] at hadd
        exact absurd hadd (by simp)
      | some t =>
        obtain ⟨a, bl, c⟩ := t
        rw [hm] at hadd
        simp only at hadd
        cases hadd
        have hout : ChromInv a bl c :=
          merge_preserves_chromInv gas _ _ _ s e cn (a, bl, c)
            (hinv (pyReplace chrom "chr" "")) hse hm
        intro ch
        simp only [SampleCNVs.segsOf, dictGet_dictSet]
        by_cases hch : pyReplace chrom "chr" "" = ch
        · rw [if_pos hch, if_pos hch, if_pos hch]
          exact hout
        · rw [if_neg hch, if_neg hch, if_neg hch]
          exact hinv ch

/-- `runAdds` preserves the invariant on every chromosome. -/
theorem runAdds_preserves_sampleInv (gas : Nat) :
    ∀ (calls : List (String × Int × Int × Int)) (self self' : SampleCNVs),
      SampleInv self →
      runAdds gas self calls = .ok (some self') →
      SampleInv self' := by
  intro calls
  induction calls with
  | nil =>
    intro self self' hinv hrun
    cases hrun
    exact hinv
  | cons hd tl ih =>
    intro self self' hinv hrun
    obtain ⟨ch, s, e, cn⟩ := hd
    simp only [runAdds] at hrun
    cases hadd : self.add gas ch s e cn with
    | error m => rw [hadd] at hrun; exact absurd hrun (by simp)
    | ok o =>
      cases o with
      | none => rw [hadd] at hrun; simp only at hrun; exact absurd hrun (by simp)
      | some mid =>
        rw [hadd] at hrun
        simp only at hrun
        exact ih mid self' (add_preserves_sampleInv self gas ch s e cn mid hinv hadd) hrun

/-- C1: after any completed sequence of inserts on a fresh sample, every
per-chromosome segment list is sorted ascending by start, each segment
is non-degenerate, and adjacent segments satisfy `end[i] ≤ start[i+1]`. -/
theorem consolidator_invariant (gas : Nat) (calls : List (String × Int × Int × Int))
    (st : SampleCNVs)
    (hrun : runAdds gas SampleCNVs.init calls = .ok (some st)) (chrom : String) :
    ChromInv (st.segsOf chrom).1 (st.segsOf chrom).2.1 (st.segsOf chrom).2.2 ∧
    StartsSorted (st.segsOf chrom).1 := by
  have h := runAdds_preserves_sampleInv gas calls SampleCNVs.init st sampleInv_init hrun chrom
  refine ⟨h, ?_⟩
  intro i hi
  obtain ⟨hlen1, hlen2, hpos, hadj⟩ := h
  exact lt_of_lt_of_le (hpos i (by omega)) (hadj i hi)

/-- C1 witness: the mixed-split example run ends in the invariant state
`[100,150,200] / [150,200,300] / [3,1,3]`. -/
theorem consolidator_invariant_witness :
    ChromInv (profMixedSplit.segsOf "1").1 (profMixedSplit.segsOf "1").2.1
      (profMixedSplit.segsOf "1").2.2 ∧
    StartsSorted (profMixedSplit.segsOf "1").1 :=
  consolidator_invariant 20 [("1", 100, 300, 3), ("1", 150, 200, 1)] profMixedSplit rfl "1"

/-- The three event keys of one chromosome are pairwise distinct. -/
theorem chromKeys_p_ne_q (n : String) : n ++ "p" ≠ n ++ "q" := by
  intro h
  have := congrArg String.data h
  simp [String.data_append] at this

/-- The p key differs from the whole-chromosome key. -/
theorem chromKeys_p_ne_C (n : String) : n ++ "p" ≠ n ++ "Chrom" := by
  intro h
  have := congrArg String.data h
  simp [String.data_append] at this

/-- The q key differs from the whole-chromosome key. -/
theorem chromKeys_q_ne_C (n : String) : n ++ "q" ≠ n ++ "Chrom" := by
  intro h
  have := congrArg String.data h
  simp [String.data_append] at this

/-- The rational comparison behind `divGT`, for a positive length. -/
theorem divGT_iff (a b : Int) (hb : 0 < b) (thr : ℚ) :
    divGT a b thr ↔ thr * (b : ℚ) < (a : ℚ) := by
  have hcast : ((b.toNat : ℕ) : ℚ) = (b : ℚ) := by norm_cast; omega
  unfold divGT
  rw [Rat.mkRat_eq_div, hcast, lt_div_iff₀ (by exact_mod_cast hb)]

/-- `divGT` is monotone in the numerator. -/
theorem divGT_mono {a a' b : Int} (hb : 0 < b) (h : a ≤ a') (thr : ℚ)
    (hgt : divGT a b thr) : divGT a' b thr := by
  rw [divGT_iff _ _ hb] at hgt ⊢
  exact lt_of_lt_of_le hgt (by exact_mod_cast h)

/-- Two overlap sums that share a window of positive length cannot both
clear a threshold of at least one half. -/
theorem divGT_conflict {x y b : Int} {thr : ℚ} (hb : 0 < b)
    (hthr : mkRat 1 2 ≤ thr) (hcap : x + y ≤ b)
    (hx : divGT x b thr) (hy : divGT y b thr) : False := by
  rw [divGT_iff _ _ hb] at hx hy
  rw [Rat.mkRat_eq_div] at hthr
  have hbq : (0 : ℚ) < (b : ℚ) := by exact_mod_cast hb
  have hcapq : (x : ℚ) + (y : ℚ) ≤ (b : ℚ) := by exact_mod_cast hcap
  nlinarith

/-- A zero overlap sum never clears a threshold of at least one half. -/
theorem divGT_zero {b : Int} {thr : ℚ} (hb : 0 < b) (hthr : mkRat 1 2 ≤ thr) :
    ¬ divGT 0 b thr := by
  rw [divGT_iff _ _ hb]
  rw [Rat.mkRat_eq_div] at hthr
  intro h
  have hbq : (0 : ℚ) < (b : ℚ) := by exact_mod_cast hb
  push_cast at h
  nlinarith

/-- The invariant yields a segment chain from any bound on the first
start. -/
theorem chromInv_segChain :
    ∀ (starts ends cns : List Int) (m : Int),
      ChromInv starts ends cns →
      (starts ≠ [] → m ≤ starts.getD 0 0) →
      segChain m starts ends := by
  intro starts
  induction starts with
  | nil =>
    intro ends cns m h _
    obtain ⟨hlen1, _, _, _⟩ := h
    cases ends with
    | nil => trivial
    | cons e es => simp at hlen1
  | cons s ss ih =>
    intro ends cns m h hm
    obtain ⟨hlen1, hlen2, hpos, hadj⟩ := h
    cases ends with
    | nil => simp at hlen1
    | cons e es =>
      cases cns with
      | nil => simp at hlen2
      | cons n ns =>
        refine ⟨hm (by simp), by simpa using hpos 0 (by simp), ?_⟩
        refine ih es ns e ⟨by simpa using hlen1, by simpa using hlen2, ?_, ?_⟩ ?_
        · intro i hi
          have := hpos (i + 1) (by simpa using Nat.succ_lt_succ hi)
          simpa using this
        · intro i hi
          have := hadj (i + 1) (by simpa using Nat.succ_lt_succ hi)
          simpa using this
        · intro hne
          have h0 := hadj 0 (by cases ss with
            | nil => exact absurd rfl hne
            | cons a l => simp)
          simpa using h0

set_option maxHeartbeats 2000000 in
/-- One step of the classifier's accumulation: capacity deltas for the
p- and q-windows, `Chrom = p + q` linking, and `homdel ⊆ del`,
`amp ⊆ gain` subfamily deltas. -/
theorem accumSegment_step (c : Chromosome) (hwf : ChromWF c) (S0 : OverlapSums)
    (m s e n : Int) (hm : m ≤ s) (hse : s < e) :
    ((accumSegment c S0 s e n).del_sum.p + (accumSegment c S0 s e n).gain_sum.p)
        + max 0 (c.p_end.getD 0 - max (c.p_start.getD 0) e)
      ≤ (S0.del_sum.p + S0.gain_sum.p)
        + max 0 (c.p_end.getD 0 - max (c.p_start.getD 0) m) ∧
    ((accumSegment c S0 s e n).del_sum.q + (accumSegment c S0 s e n).gain_sum.q)
        + max 0 (c.q_end.getD 0 - max (c.q_start.getD 0) e)
      ≤ (S0.del_sum.q + S0.gain_sum.q)
        + max 0 (c.q_end.getD 0 - max (c.q_start.getD 0) m) ∧
    (accumSegment c S0 s e n).del_sum.Chrom - S0.del_sum.Chrom
      = ((accumSegment c S0 s e n).del_sum.p - S0.del_sum.p)
        + ((accumSegment c S0 s e n).del_sum.q - S0.del_sum.q) ∧
    (accumSegment c S0 s e n).homdel_sum.Chrom - S0.homdel_sum.Chrom
      = ((accumSegment c S0 s e n).homdel_sum.p - S0.homdel_sum.p)
        + ((accumSegment c S0 s e n).homdel_sum.q - S0.homdel_sum.q) ∧
    (accumSegment c S0 s e n).gain_sum.Chrom - S0.gain_sum.Chrom
      = ((accumSegment c S0 s e n).gain_sum.p - S0.gain_sum.p)
        + ((accumSegment c S0 s e n).gain_sum.q - S0.gain_sum.q) ∧
    (accumSegment c S0 s e n).amp_sum.Chrom - S0.amp_sum.Chrom
      = ((accumSegment c S0 s e n).amp_sum.p - S0.amp_sum.p)
        + ((accumSegment c S0 s e n).amp_sum.q - S0.amp_sum.q) ∧
    (accumSegment c S0 s e n).homdel_sum.p - S0.homdel_sum.p
      ≤ (accumSegment c S0 s e n).del_sum.p - S0.del_sum.p ∧
    (accumSegment c S0 s e n).homdel_sum.q - S0.homdel_sum.q
      ≤ (accumSegment c S0 s e n).del_sum.q - S0.del_sum.q ∧
    (accumSegment c S0 s e n).amp_sum.p - S0.amp_sum.p
      ≤ (accumSegment c S0 s e n).gain_sum.p - S0.gain_sum.p ∧
    (accumSegment c S0 s e n).amp_sum.q - S0.amp_sum.q
      ≤ (accumSegment c S0 s e n).gain_sum.q - S0.gain_sum.q := by
  obtain ⟨w1, w2, w3, w4, w5, w6, w7⟩ := hwf
  simp only [accumSegment, ArmSums.addP, ArmSums.addQ]
  split_ifs <;>
    refine ⟨?_, ?_, ?_, ?_, ?_, ?_, ?_, ?_, ?_, ?_⟩ <;> simp <;> omega

/-- Loop-level accumulation facts: window capacity, `Chrom = p + q`, and
subfamily inclusion, for any chained segment run. -/
theorem overlapSumsLoop_facts (c : Chromosome) (hwf : ChromWF c) :
    ∀ (ss es ns : List Int) (m : Int), segChain m ss es → ∀ (S0 : OverlapSums),
      ((overlapSumsLoop c ss es ns S0).del_sum.p + (overlapSumsLoop c ss es ns S0).gain_sum.p
        ≤ S0.del_sum.p + S0.gain_sum.p + max 0 (c.p_end.getD 0 - max (c.p_start.getD 0) m)) ∧
      ((overlapSumsLoop c ss es ns S0).del_sum.q + (overlapSumsLoop c ss es ns S0).gain_sum.q
        ≤ S0.del_sum.q + S0.gain_sum.q + max 0 (c.q_end.getD 0 - max (c.q_start.getD 0) m)) ∧
      (overlapSumsLoop c ss es ns S0).del_sum.Chrom - S0.del_sum.Chrom
        = ((overlapSumsLoop c ss es ns S0).del_sum.p - S0.del_sum.p)
          + ((overlapSumsLoop c ss es ns S0).del_sum.q - S0.del_sum.q) ∧
      (overlapSumsLoop c ss es ns S0).homdel_sum.Chrom - S0.homdel_sum.Chrom
        = ((overlapSumsLoop c ss es ns S0).homdel_sum.p - S0.homdel_sum.p)
          + ((overlapSumsLoop c ss es ns S0).homdel_sum.q - S0.homdel_sum.q) ∧
      (overlapSumsLoop c ss es ns S0).gain_sum.Chrom - S0.gain_sum.Chrom
        = ((overlapSumsLoop c ss es ns S0).gain_sum.p - S0.gain_sum.p)
          + ((overlapSumsLoop c ss es ns S0).gain_sum.q - S0.gain_sum.q) ∧
      (overlapSumsLoop c ss es ns S0).amp_sum.Chrom - S0.amp_sum.Chrom
        = ((overlapSumsLoop c ss es ns S0).amp_sum.p - S0.amp_sum.p)
          + ((overlapSumsLoop c ss es ns S0).amp_sum.q - S0.amp_sum.q) ∧
      (overlapSumsLoop c ss es ns S0).homdel_sum.p - S0.homdel_sum.p
        ≤ (overlapSumsLoop c ss es ns S0).del_sum.p - S0.del_sum.p ∧
      (overlapSumsLoop c ss es ns S0).homdel_sum.q - S0.homdel_sum.q
        ≤ (overlapSumsLoop c ss es ns S0).del_sum.q - S0.del_sum.q ∧
      (overlapSumsLoop c ss es ns S0).amp_sum.p - S0.amp_sum.p
        ≤ (overlapSumsLoop c ss es ns S0).gain_sum.p - S0.gain_sum.p ∧
      (overlapSumsLoop c ss es ns S0).amp_sum.q - S0.amp_sum.q
        ≤ (overlapSumsLoop c ss es ns S0).gain_sum.q - S0.gain_sum.q := by
  intro ss
  induction ss with
  | nil =>
    intro es ns m hchain S0
    simp only [overlapSumsLoop]
    refine ⟨?_, ?_, ?_, ?_, ?_, ?_, ?_, ?_, ?_, ?_⟩ <;> omega
  | cons s ss ih =>
    intro es ns m hchain S0
    cases es with
    | nil => exact absurd hchain (by simp [segChain])
    | cons e es =>
      obtain ⟨hms, hse, hrest⟩ := hchain
      cases ns with
      | nil =>
        simp only [overlapSumsLoop]
        refine ⟨?_, ?_, ?_, ?_, ?_, ?_, ?_, ?_, ?_, ?_⟩ <;> omega
      | cons n ns =>
        have hstep := accumSegment_step c hwf S0 m s e n hms hse
        have hrec := ih es ns e hrest (accumSegment c S0 s e n)
        simp only [overlapSumsLoop]
        obtain ⟨a1, a2, a3, a4, a5, a6, a7, a8, a9, a10⟩ := hstep
        obtain ⟨b1, b2, b3, b4, b5, b6, b7, b8, b9, b10⟩ := hrec
        refine ⟨by omega, by omega, by omega, by omega, by omega, by omega,
          by omega, by omega, by omega, by omega⟩

/-- The classifier's overlap sums of an invariant-satisfying profile are
bounded by the arm lengths, `Chrom` sums split into `p + q`, and the
higher tiers are below the lower tiers. -/
theorem overlapSums_capacity (c : Chromosome) (hwf : ChromWF c)
    (starts ends cns : List Int) (hinv : ChromInv starts ends cns) :
    (overlapSumsLoop c starts ends cns OverlapSums.zero).del_sum.p
      + (overlapSumsLoop c starts ends cns OverlapSums.zero).gain_sum.p ≤ c.p_length ∧
    (overlapSumsLoop c starts ends cns OverlapSums.zero).del_sum.q
      + (overlapSumsLoop c starts ends cns OverlapSums.zero).gain_sum.q ≤ c.q_length ∧
    (overlapSumsLoop c starts ends cns OverlapSums.zero).del_sum.Chrom
      + (overlapSumsLoop c starts ends cns OverlapSums.zero).gain_sum.Chrom
      ≤ c.p_length + c.q_length ∧
    (overlapSumsLoop c starts ends cns OverlapSums.zero).homdel_sum.p
      ≤ (overlapSumsLoop c starts ends cns OverlapSums.zero).del_sum.p ∧
    (overlapSumsLoop c starts ends cns OverlapSums.zero).homdel_sum.q
      ≤ (overlapSumsLoop c starts ends cns OverlapSums.zero).del_sum.q ∧
    (overlapSumsLoop c starts ends cns OverlapSums.zero).homdel_sum.Chrom
      ≤ (overlapSumsLoop c starts ends cns OverlapSums.zero).del_sum.Chrom ∧
    (overlapSumsLoop c starts ends cns OverlapSums.zero).amp_sum.p
      ≤ (overlapSumsLoop c starts ends cns OverlapSums.zero).gain_sum.p ∧
    (overlapSumsLoop c starts ends cns OverlapSums.zero).amp_sum.q
      ≤ (overlapSumsLoop c starts ends cns OverlapSums.zero).gain_sum.q ∧
    (overlapSumsLoop c starts ends cns OverlapSums.zero).amp_sum.Chrom
      ≤ (overlapSumsLoop c starts ends cns OverlapSums.zero).gain_sum.Chrom := by
  obtain ⟨w1, w2, w3, w4, w5, w6, w7⟩ := hwf
  have hchain := chromInv_segChain starts ends cns (starts.getD 0 0) hinv (fun _ => le_refl _)
  have hfacts := overlapSumsLoop_facts c ⟨w1, w2, w3, w4, w5, w6, w7⟩
    starts ends cns (starts.getD 0 0) hchain OverlapSums.zero
  obtain ⟨b1, b2, b3, b4, b5, b6, b7, b8, b9, b10⟩ := hfacts
  simp only [OverlapSums.zero] at b1 b2 b3 b4 b5 b6 b7 b8 b9 b10 ⊢
  refine ⟨by omega, by omega, by omega, by omega, by omega, by omega,
    by omega, by omega, by omega⟩

/-- Whole-chromosome lookup after the gain half (fresh dict). -/
theorem gainEvents_lookup_C (n : String) (c : Chromosome) (S : OverlapSums) (thr : ℚ) :
    dictGet (gainEvents n c S thr []) (n ++ "Chrom") =
      if divGT S.amp_sum.Chrom (c.p_length + c.q_length) thr then some "AMP"
      else if divGT S.gain_sum.Chrom (c.p_length + c.q_length) thr then some "GAIN"
      else none := by
  have hpq := chromKeys_p_ne_q n
  have hpC := chromKeys_p_ne_C n
  have hqC := chromKeys_q_ne_C n
  have hqp := hpq.symm
  have hCp := hpC.symm
  have hCq := hqC.symm
  by_cases hAC : divGT S.amp_sum.Chrom (c.p_length + c.q_length) thr <;>
    by_cases hAP : divGT S.amp_sum.p c.p_length thr <;>
    by_cases hAQ : divGT S.amp_sum.q c.q_length thr <;>
    by_cases hGC : divGT S.gain_sum.Chrom (c.p_length + c.q_length) thr <;>
    by_cases hGP : divGT S.gain_sum.p c.p_length thr <;>
    by_cases hGQ : divGT S.gain_sum.q c.q_length thr <;>
    simp [gainEvents, dictGet_dictSet, dictGet, hpq, hpC, hqC, hqp, hCp, hCq,
      hAC, hAP, hAQ, hGC, hGP, hGQ]

/-- The p-arm lookup after the gain half (fresh dict). -/
theorem gainEvents_lookup_p (n : String) (c : Chromosome) (S : OverlapSums) (thr : ℚ) :
    dictGet (gainEvents n c S thr []) (n ++ "p") =
      if divGT S.amp_sum.Chrom (c.p_length + c.q_length) thr then none
      else if divGT S.amp_sum.p c.p_length thr then some "AMP"
      else if ¬ divGT S.gain_sum.Chrom (c.p_length + c.q_length) thr ∧
          divGT S.gain_sum.p c.p_length thr then some "GAIN"
      else none := by
  have hpq := chromKeys_p_ne_q n
  have hpC := chromKeys_p_ne_C n
  have hqC := chromKeys_q_ne_C n
  have hqp := hpq.symm
  have hCp := hpC.symm
  have hCq := hqC.symm
  by_cases hAC : divGT S.amp_sum.Chrom (c.p_length + c.q_length) thr <;>
    by_cases hAP : divGT S.amp_sum.p c.p_length thr <;>
    by_cases hAQ : divGT S.amp_sum.q c.q_length thr <;>
    by_cases hGC : divGT S.gain_sum.Chrom (c.p_length + c.q_length) thr <;>
    by_cases hGP : divGT S.gain_sum.p c.p_length thr <;>
    by_cases hGQ : divGT S.gain_sum.q c.q_length thr <;>
    simp [gainEvents, dictGet_dictSet, dictGet, hpq, hpC, hqC, hqp, hCp, hCq,
      hAC, hAP, hAQ, hGC, hGP, hGQ]

/-- The q-arm lookup after the gain half (fresh dict). -/
theorem gainEvents_lookup_q (n : String) (c : Chromosome) (S : OverlapSums) (thr : ℚ) :
    dictGet (gainEvents n c S thr []) (n ++ "q") =
      if divGT S.amp_sum.Chrom (c.p_length + c.q_length) thr then none
      else if ¬ divGT S.amp_sum.p c.p_length thr ∧ divGT S.amp_sum.q c.q_length thr then
        some "AMP"
      else if ¬ divGT S.gain_sum.Chrom (c.p_length + c.q_length) thr ∧
          ¬ (¬ divGT S.amp_sum.p c.p_length thr ∧ divGT S.amp_sum.q c.q_length thr) ∧
          divGT S.gain_sum.q c.q_length thr then some "GAIN"
      else none := by
  have hpq := chromKeys_p_ne_q n
  have hpC := chromKeys_p_ne_C n
  have hqC := chromKeys_q_ne_C n
  have hqp := hpq.symm
  have hCp := hpC.symm
  have hCq := hqC.symm
  by_cases hAC : divGT S.amp_sum.Chrom (c.p_length + c.q_length) thr <;>
    by_cases hAP : divGT S.amp_sum.p c.p_length thr <;>
    by_cases hAQ : divGT S.amp_sum.q c.q_length thr <;>
    by_cases hGC : divGT S.gain_sum.Chrom (c.p_length + c.q_length) thr <;>
    by_cases hGP : divGT S.gain_sum.p c.p_length thr <;>
    by_cases hGQ : divGT S.gain_sum.q c.q_length thr <;>
    simp [gainEvents, dictGet_dictSet, dictGet, hpq, hpC, hqC, hqp, hCp, hCq,
      hAC, hAP, hAQ, hGC, hGP, hGQ]

/-- Keys other than the three event keys are untouched by the gain half. -/
theorem gainEvents_lookup_other (n : String) (c : Chromosome) (S : OverlapSums) (thr : ℚ)
    (ev : List (String × String)) (k : String)
    (hkC : (n ++ "Chrom") ≠ k) (hkp : (n ++ "p") ≠ k) (hkq : (n ++ "q") ≠ k) :
    dictGet (gainEvents n c S thr ev) k = dictGet ev k := by
  by_cases hAC : divGT S.amp_sum.Chrom (c.p_length + c.q_length) thr <;>
    by_cases hAP : divGT S.amp_sum.p c.p_length thr <;>
    by_cases hAQ : divGT S.amp_sum.q c.q_length thr <;>
    simp [gainEvents, dictGet_dictSet, hkC, hkp, hkq, hAC, hAP, hAQ] <;>
    split_ifs <;>
    simp [dictGet_dictSet, hkC, hkp, hkq]

/-- Keys other than the three event keys are untouched by the loss half. -/
theorem lossEvents_lookup_other (n : String) (c : Chromosome) (S : OverlapSums) (thr : ℚ)
    (ev : List (String × String)) (k : String)
    (hkC : (n ++ "Chrom") ≠ k) (hkp : (n ++ "p") ≠ k) (hkq : (n ++ "q") ≠ k) :
    dictGet (lossEvents n c S thr ev) k = dictGet ev k := by
  by_cases hHC : divGT S.homdel_sum.Chrom (c.p_length + c.q_length) thr <;>
    by_cases hHP : divGT S.homdel_sum.p c.p_length thr <;>
    by_cases hHQ : divGT S.homdel_sum.q c.q_length thr <;>
    simp [lossEvents, dictGet_dictSet, hkC, hkp, hkq, hHC, hHP, hHQ] <;>
    split_ifs <;>
    simp [dictGet_dictSet, hkC, hkp, hkq]

/-- Whole-chromosome lookup after the loss half, over any input dict. -/
theorem lossEvents_lookup_C (n : String) (c : Chromosome) (S : OverlapSums) (thr : ℚ)
    (ev : List (String × String)) :
    dictGet (lossEvents n c S thr ev) (n ++ "Chrom") =
      if divGT S.homdel_sum.Chrom (c.p_length + c.q_length) thr then some "HOMDEL"
      else if dictGet ev (n ++ "Chrom") = none ∧
          divGT S.del_sum.Chrom (c.p_length + c.q_length) thr then some "HETLOSS"
      else dictGet ev (n ++ "Chrom") := by
  have hpq := chromKeys_p_ne_q n
  have hpC := chromKeys_p_ne_C n
  have hqC := chromKeys_q_ne_C n
  have hqp := hpq.symm
  have hCp := hpC.symm
  have hCq := hqC.symm
  by_cases hHC : divGT S.homdel_sum.Chrom (c.p_length + c.q_length) thr <;>
    by_cases hHP : divGT S.homdel_sum.p c.p_length thr <;>
    by_cases hHQ : divGT S.homdel_sum.q c.q_length thr <;>
    by_cases hDC : divGT S.del_sum.Chrom (c.p_length + c.q_length) thr <;>
    by_cases hevC : dictGet ev (n ++ "Chrom") = none <;>
    simp [lossEvents, dictGet_dictSet, hpq, hpC, hqC, hqp, hCp, hCq,
      hHC, hHP, hHQ, hDC, hevC, Option.isNone_iff_eq_none] <;>
    split_ifs <;>
    simp_all [dictGet_dictSet, hpq, hpC, hqC, hqp, hCp, hCq]

/-- The p-arm lookup after the loss half, over any input dict. -/
theorem lossEvents_lookup_p (n : String) (c : Chromosome) (S : OverlapSums) (thr : ℚ)
    (ev : List (String × String)) :
    dictGet (lossEvents n c S thr ev) (n ++ "p") =
      if divGT S.homdel_sum.Chrom (c.p_length + c.q_length) thr then dictGet ev (n ++ "p")
      else if divGT S.homdel_sum.p c.p_length thr then some "HOMDEL"
      else if ¬ (dictGet ev (n ++ "Chrom") = none ∧
            divGT S.del_sum.Chrom (c.p_length + c.q_length) thr) ∧
          dictGet ev (n ++ "p") = none ∧ divGT S.del_sum.p c.p_length thr then
        some "HETLOSS"
      else dictGet ev (n ++ "p") := by
  have hpq := chromKeys_p_ne_q n
  have hpC := chromKeys_p_ne_C n
  have hqC := chromKeys_q_ne_C n
  have hqp := hpq.symm
  have hCp := hpC.symm
  have hCq := hqC.symm
  by_cases hHC : divGT S.homdel_sum.Chrom (c.p_length + c.q_length) thr <;>
    by_cases hHP : divGT S.homdel_sum.p c.p_length thr <;>
    by_cases hHQ : divGT S.homdel_sum.q c.q_length thr <;>
    by_cases hDC : divGT S.del_sum.Chrom (c.p_length + c.q_length) thr <;>
    by_cases hDP : divGT S.del_sum.p c.p_length thr <;>
    by_cases hevC : dictGet ev (n ++ "Chrom") = none <;>
    by_cases hevp : dictGet ev (n ++ "p") = none <;>
    simp [lossEvents, dictGet_dictSet, hpq, hpC, hqC, hqp, hCp, hCq,
      hHC, hHP, hHQ, hDC, hDP, hevC, hevp, Option.isNone_iff_eq_none] <;>
    split_ifs <;>
    simp_all [dictGet_dictSet, hpq, hpC, hqC, hqp, hCp, hCq]

/-- The q-arm lookup after the loss half, over any input dict. -/
theorem lossEvents_lookup_q (n : String) (c : Chromosome) (S : OverlapSums) (thr : ℚ)
    (ev : List (String × String)) :
    dictGet (lossEvents n c S thr ev) (n ++ "q") =
      if divGT S.homdel_sum.Chrom (c.p_length + c.q_length) thr then dictGet ev (n ++ "q")
      else if ¬ divGT S.homdel_sum.p c.p_length thr ∧ divGT S.homdel_sum.q c.q_length thr then
        some "HOMDEL"
      else if ¬ (dictGet ev (n ++ "Chrom") = none ∧
            divGT S.del_sum.Chrom (c.p_length + c.q_length) thr) ∧
          dictGet ev (n ++ "q") = none ∧ divGT S.del_sum.q c.q_length thr then
        some "HETLOSS"
      else dictGet ev (n ++ "q") := by
  have hpq := chromKeys_p_ne_q n
  have hpC := chromKeys_p_ne_C n
  have hqC := chromKeys_q_ne_C n
  have hqp := hpq.symm
  have hCp := hpC.symm
  have hCq := hqC.symm
  by_cases hHC : divGT S.homdel_sum.Chrom (c.p_length + c.q_length) thr <;>
    by_cases hHP : divGT S.homdel_sum.p c.p_length thr <;>
    by_cases hHQ : divGT S.homdel_sum.q c.q_length thr <;>
    by_cases hDC : divGT S.del_sum.Chrom (c.p_length + c.q_length) thr <;>
    by_cases hDQ : divGT S.del_sum.q c.q_length thr <;>
    by_cases hevC : dictGet ev (n ++ "Chrom") = none <;>
    by_cases hevq : dictGet ev (n ++ "q") = none <;>
    simp [lossEvents, dictGet_dictSet, hpq, hpC, hqC, hqp, hCp, hCq,
      hHC, hHP, hHQ, hDC, hDQ, hevC, hevq, Option.isNone_iff_eq_none] <;>
    split_ifs <;>
    simp_all [dictGet_dictSet, hpq, hpC, hqC, hqp, hCp, hCq]

/-- A whole-chromosome entry left by the gain half is a gain label backed
by a gain-family sum over the threshold. -/
theorem gainEvents_occupied_C (n : String) (c : Chromosome) (S : OverlapSums)
    (thr : ℚ) (v : String)
    (h : dictGet (gainEvents n c S thr []) (n ++ "Chrom") = some v) :
    isGainLabel v ∧ (divGT S.amp_sum.Chrom (c.p_length + c.q_length) thr ∨
      divGT S.gain_sum.Chrom (c.p_length + c.q_length) thr) := by
  rw [gainEvents_lookup_C] at h
  split_ifs at h with h1 h2
  · have hv : v = "AMP" := by injection h with h'; exact h'.symm
    subst hv
    exact ⟨Or.inl rfl, Or.inl h1⟩
  · have hv : v = "GAIN" := by injection h with h'; exact h'.symm
    subst hv
    exact ⟨Or.inr rfl, Or.inr h2⟩

/-- A p-arm entry left by the gain half is a gain label backed by a
p-arm gain-family sum over the threshold. -/
theorem gainEvents_occupied_p (n : String) (c : Chromosome) (S : OverlapSums)
    (thr : ℚ) (v : String)
    (h : dictGet (gainEvents n c S thr []) (n ++ "p") = some v) :
    isGainLabel v ∧ (divGT S.amp_sum.p c.p_length thr ∨ divGT S.gain_sum.p c.p_length thr) := by
  rw [gainEvents_lookup_p] at h
  split_ifs at h with h1 h2 h3
  · have hv : v = "AMP" := by injection h with h'; exact h'.symm
    subst hv
    exact ⟨Or.inl rfl, Or.inl h2⟩
  · have hv : v = "GAIN" := by injection h with h'; exact h'.symm
    subst hv
    exact ⟨Or.inr rfl, Or.inr h3.2⟩

/-- A q-arm entry left by the gain half is a gain label backed by a
q-arm gain-family sum over the threshold. -/
theorem gainEvents_occupied_q (n : String) (c : Chromosome) (S : OverlapSums)
    (thr : ℚ) (v : String)
    (h : dictGet (gainEvents n c S thr []) (n ++ "q") = some v) :
    isGainLabel v ∧ (divGT S.amp_sum.q c.q_length thr ∨ divGT S.gain_sum.q c.q_length thr) := by
  rw [gainEvents_lookup_q] at h
  split_ifs at h with h1 h2 h3
  · have hv : v = "AMP" := by injection h with h'; exact h'.symm
    subst hv
    exact ⟨Or.inl rfl, Or.inl h2.2⟩
  · have hv : v = "GAIN" := by injection h with h'; exact h'.symm
    subst hv
    exact ⟨Or.inr rfl, Or.inr h3.2.2⟩

/-- The gain half only reads the gain-family sums, so zeroing the loss
sums does not change it. -/
theorem gainEvents_zeroLosses (n : String) (c : Chromosome) (S : OverlapSums)
    (thr : ℚ) (ev : List (String × String)) :
    gainEvents n c S.zeroLosses thr ev = gainEvents n c S thr ev := rfl

/-- The loss half only reads the loss-family sums, so zeroing the gain
sums does not change it. -/
theorem lossEvents_zeroGains (n : String) (c : Chromosome) (S : OverlapSums)
    (thr : ℚ) (ev : List (String × String)) :
    lossEvents n c S.zeroGains thr ev = lossEvents n c S thr ev := rfl

/-- `del_sum.Chrom` over the threshold forbids any gain occupancy of the
whole-chromosome key (capacity plus a threshold of at least one half). -/
theorem delChrom_blocks_gain_key (n : String) (c : Chromosome) (S : OverlapSums)
    (thr : ℚ) (hpq : (0 : Int) < c.p_length + c.q_length)
    (hthr : mkRat 1 2 ≤ thr)
    (cap3 : S.del_sum.Chrom + S.gain_sum.Chrom ≤ c.p_length + c.q_length)
    (cap9 : S.amp_sum.Chrom ≤ S.gain_sum.Chrom)
    (hDC : divGT S.del_sum.Chrom (c.p_length + c.q_length) thr) :
    dictGet (gainEvents n c S thr []) (n ++ "Chrom") = none := by
  cases hGc : dictGet (gainEvents n c S thr []) (n ++ "Chrom") with
  | none => rfl
  | some w =>
    obtain ⟨_, hor⟩ := gainEvents_occupied_C n c S thr w hGc
    have hGC : divGT S.gain_sum.Chrom (c.p_length + c.q_length) thr := by
      rcases hor with h | h
      · exact divGT_mono hpq cap9 thr h
      · exact h
    exact absurd hGC (fun hg => divGT_conflict hpq hthr cap3 hDC hg)

set_option maxHeartbeats 3000000 in
/-- C3: the gain family (`AMP`/`GAIN`) and loss family (`HOMDEL`/`HETLOSS`)
halves of `overlap_chrom` are independent on an invariant-satisfying profile
over a well-formed chromosome, for any threshold of at least one half (the
default is `0.8`): every loss-label lookup of the event dict equals the
lookup computed with the gain-family overlap sums zeroed, and every
gain-label lookup equals the lookup computed with the loss-family sums
zeroed; the two families may thus populate different keys independently. -/
theorem classify_families_independent (n : String) (c : Chromosome)
    (starts ends cns : List Int) (thr : ℚ) (k v : String)
    (hwf : ChromWF c) (hinv : ChromInv starts ends cns)
    (hthr : mkRat 1 2 ≤ thr) :
    (isLossLabel v →
      (dictGet (overlapEvents n c
          (overlapSumsLoop c starts ends cns OverlapSums.zero) thr) k = some v ↔
        dictGet (overlapEvents n c
          (overlapSumsLoop c starts ends cns OverlapSums.zero).zeroGains thr) k = some v)) ∧
    (isGainLabel v →
      (dictGet (overlapEvents n c
          (overlapSumsLoop c starts ends cns OverlapSums.zero) thr) k = some v ↔
        dictGet (overlapEvents n c
          (overlapSumsLoop c starts ends cns OverlapSums.zero).zeroLosses thr) k = some v)) := by
  obtain ⟨w1, w2, w3, w4, w5, w6, w7⟩ := hwf
  have hpq : (0 : Int) < c.p_length + c.q_length := by omega
  obtain ⟨cap1, cap2, cap3, cap4, cap5, cap6, cap7, cap8, cap9⟩ :=
    overlapSums_capacity c ⟨w1, w2, w3, w4, w5, w6, w7⟩ starts ends cns hinv
  set S := overlapSumsLoop c starts ends cns OverlapSums.zero with hS
  have hZpq : ¬ divGT 0 (c.p_length + c.q_length) thr := divGT_zero hpq hthr
  have hZp : ¬ divGT 0 c.p_length thr := divGT_zero w4 hthr
  have hZq : ¬ divGT 0 c.q_length thr := divGT_zero w5 hthr
  have hGzero : gainEvents n c S.zeroGains thr [] = [] := by
    simp [gainEvents, OverlapSums.zeroGains, hZpq, hZp, hZq, dictGet]
  have hLid : lossEvents n c S.zeroLosses thr (gainEvents n c S thr []) =
      gainEvents n c S thr [] := by
    simp [lossEvents, OverlapSums.zeroLosses, hZpq, hZp, hZq]
  have hDCnone := delChrom_blocks_gain_key n c S thr hpq hthr cap3 cap9
  unfold overlapEvents
  rw [hGzero, lossEvents_zeroGains, gainEvents_zeroLosses, hLid]
  constructor
  · intro hv
    have hv' : v = "HOMDEL" ∨ v = "HETLOSS" := hv
    by_cases hkC : k = n ++ "Chrom"
    · subst hkC
      rw [lossEvents_lookup_C, lossEvents_lookup_C]
      cases hGc : dictGet (gainEvents n c S thr []) (n ++ "Chrom") with
      | none => simp [hGc, dictGet]
      | some w =>
        obtain ⟨hgl, hor⟩ := gainEvents_occupied_C n c S thr w hGc
        have hgl' : w = "AMP" ∨ w = "GAIN" := hgl
        have hGC : divGT S.gain_sum.Chrom (c.p_length + c.q_length) thr := by
          rcases hor with h | h
          · exact divGT_mono hpq cap9 thr h
          · exact h
        have hnDC : ¬ divGT S.del_sum.Chrom (c.p_length + c.q_length) thr :=
          fun hDC => divGT_conflict hpq hthr cap3 hDC hGC
        have hnHC : ¬ divGT S.homdel_sum.Chrom (c.p_length + c.q_length) thr :=
          fun hHC => hnDC (divGT_mono hpq cap6 thr hHC)
        rcases hv' with rfl | rfl <;> rcases hgl' with rfl | rfl <;>
          simp [hGc, hnDC, hnHC, dictGet]
    · by_cases hkp : k = n ++ "p"
      · subst hkp
        rw [lossEvents_lookup_p, lossEvents_lookup_p]
        cases hGp : dictGet (gainEvents n c S thr []) (n ++ "p") with
        | none =>
          by_cases hDC : divGT S.del_sum.Chrom (c.p_length + c.q_length) thr
          · simp [hGp, hDCnone hDC, hDC, dictGet]
          · simp [hGp, hDC, dictGet]
        | some w =>
          obtain ⟨hgl, hor⟩ := gainEvents_occupied_p n c S thr w hGp
          have hgl' : w = "AMP" ∨ w = "GAIN" := hgl
          have hGP : divGT S.gain_sum.p c.p_length thr := by
            rcases hor with h | h
            · exact divGT_mono w4 cap7 thr h
            · exact h
          have hnDP : ¬ divGT S.del_sum.p c.p_length thr :=
            fun hDP => divGT_conflict w4 hthr cap1 hDP hGP
          have hnHP : ¬ divGT S.homdel_sum.p c.p_length thr :=
            fun hHP => hnDP (divGT_mono w4 cap4 thr hHP)
          rcases hv' with rfl | rfl <;> rcases hgl' with rfl | rfl <;>
            simp [hGp, hnDP, hnHP, dictGet]
      · by_cases hkq : k = n ++ "q"
        · subst hkq
          rw [lossEvents_lookup_q, lossEvents_lookup_q]
          cases hGq : dictGet (gainEvents n c S thr []) (n ++ "q") with
          | none =>
            by_cases hDC : divGT S.del_sum.Chrom (c.p_length + c.q_length) thr
            · simp [hGq, hDCnone hDC, hDC, dictGet]
            · simp [hGq, hDC, dictGet]
          | some w =>
            obtain ⟨hgl, hor⟩ := gainEvents_occupied_q n c S thr w hGq
            have hgl' : w = "AMP" ∨ w = "GAIN" := hgl
            have hGQ : divGT S.gain_sum.q c.q_length thr := by
              rcases hor with h | h
              · exact divGT_mono w5 cap8 thr h
              · exact h
            have hnDQ : ¬ divGT S.del_sum.q c.q_length thr :=
              fun hDQ => divGT_conflict w5 hthr cap2 hDQ hGQ
            have hnHQ : ¬ divGT S.homdel_sum.q c.q_length thr :=
              fun hHQ => hnDQ (divGT_mono w5 cap5 thr hHQ)
            rcases hv' with rfl | rfl <;> rcases hgl' with rfl | rfl <;>
              simp [hGq, hnDQ, hnHQ, dictGet]
        · have hC' : (n ++ "Chrom") ≠ k := fun h => hkC h.symm
          have hp' : (n ++ "p") ≠ k := fun h => hkp h.symm
          have hq' : (n ++ "q") ≠ k := fun h => hkq h.symm
          rw [lossEvents_lookup_other n c S thr (gainEvents n c S thr []) k hC' hp' hq',
            lossEvents_lookup_other n c S thr [] k hC' hp' hq',
            gainEvents_lookup_other n c S thr [] k hC' hp' hq']
  · intro hv
    have hv' : v = "AMP" ∨ v = "GAIN" := hv
    by_cases hkC : k = n ++ "Chrom"
    · subst hkC
      rw [lossEvents_lookup_C]
      cases hGc : dictGet (gainEvents n c S thr []) (n ++ "Chrom") with
      | none =>
        rcases hv' with rfl | rfl <;> split_ifs <;> simp [dictGet]
      | some w =>
        obtain ⟨_, hor⟩ := gainEvents_occupied_C n c S thr w hGc
        have hGC : divGT S.gain_sum.Chrom (c.p_length + c.q_length) thr := by
          rcases hor with h | h
          · exact divGT_mono hpq cap9 thr h
          · exact h
        have hnDC : ¬ divGT S.del_sum.Chrom (c.p_length + c.q_length) thr :=
          fun hDC => divGT_conflict hpq hthr cap3 hDC hGC
        have hnHC : ¬ divGT S.homdel_sum.Chrom (c.p_length + c.q_length) thr :=
          fun hHC => hnDC (divGT_mono hpq cap6 thr hHC)
        simp [hGc, hnDC, hnHC]
    · by_cases hkp : k = n ++ "p"
      · subst hkp
        rw [lossEvents_lookup_p]
        cases hGp : dictGet (gainEvents n c S thr []) (n ++ "p") with
        | none =>
          rcases hv' with rfl | rfl <;> split_ifs <;> simp [dictGet]
        | some w =>
          obtain ⟨_, hor⟩ := gainEvents_occupied_p n c S thr w hGp
          have hGP : divGT S.gain_sum.p c.p_length thr := by
            rcases hor with h | h
            · exact divGT_mono w4 cap7 thr h
            · exact h
          have hnDP : ¬ divGT S.del_sum.p c.p_length thr :=
            fun hDP => divGT_conflict w4 hthr cap1 hDP hGP
          have hnHP : ¬ divGT S.homdel_sum.p c.p_length thr :=
            fun hHP => hnDP (divGT_mono w4 cap4 thr hHP)
          simp [hGp, hnDP, hnHP]
      · by_cases hkq : k = n ++ "q"
        · subst hkq
          rw [lossEvents_lookup_q]
          cases hGq : dictGet (gainEvents n c S thr []) (n ++ "q") with
          | none =>
            rcases hv' with rfl | rfl <;> split_ifs <;> simp [dictGet]
          | some w =>
            obtain ⟨_, hor⟩ := gainEvents_occupied_q n c S thr w hGq
            have hGQ : divGT S.gain_sum.q c.q_length thr := by
              rcases hor with h | h
              · exact divGT_mono w5 cap8 thr h
              · exact h
            have hnDQ : ¬ divGT S.del_sum.q c.q_length thr :=
              fun hDQ => divGT_conflict w5 hthr cap2 hDQ hGQ
            have hnHQ : ¬ divGT S.homdel_sum.q c.q_length thr :=
              fun hHQ => hnDQ (divGT_mono w5 cap5 thr hHQ)
            simp [hGq, hnDQ, hnHQ]
        · have hC' : (n ++ "Chrom") ≠ k := fun h => hkC h.symm
          have hp' : (n ++ "p") ≠ k := fun h => hkp h.symm
          have hq' : (n ++ "q") ≠ k := fun h => hkq h.symm
          rw [lossEvents_lookup_other n c S thr (gainEvents n c S thr []) k hC' hp' hq']

/-- C3 witness: on `chrFull2000` with a gain segment `[0,900), cn=3` and a
loss segment `[1000,1900), cn=1` at the default `0.8` threshold, the
`HETLOSS` lookups at key `"1q"` agree with the gain-sums-zeroed run. -/
theorem classify_families_independent_witness :
    ChromWF chrFull2000 ∧ ChromInv [0, 1000] [900, 1900] [3, 1] ∧
    mkRat 1 2 ≤ mkRat 4 5 ∧
    ((isLossLabel "HETLOSS" →
      (dictGet (overlapEvents "1" chrFull2000
          (overlapSumsLoop chrFull2000 [0, 1000] [900, 1900] [3, 1] OverlapSums.zero)
          (mkRat 4 5)) "1q" = some "HETLOSS" ↔
        dictGet (overlapEvents "1" chrFull2000
          (overlapSumsLoop chrFull2000 [0, 1000] [900, 1900] [3, 1]
            OverlapSums.zero).zeroGains
          (mkRat 4 5)) "1q" = some "HETLOSS")) ∧
     (isGainLabel "HETLOSS" →
      (dictGet (overlapEvents "1" chrFull2000
          (overlapSumsLoop chrFull2000 [0, 1000] [900, 1900] [3, 1] OverlapSums.zero)
          (mkRat 4 5)) "1q" = some "HETLOSS" ↔
        dictGet (overlapEvents "1" chrFull2000
          (overlapSumsLoop chrFull2000 [0, 1000] [900, 1900] [3, 1]
            OverlapSums.zero).zeroLosses
          (mkRat 4 5)) "1q" = some "HETLOSS"))) := by
  have hwf : ChromWF chrFull2000 := by
    refine ⟨?_, ?_, ?_, ?_, ?_, ?_, ?_⟩ <;> decide
  have hinv : ChromInv [0, 1000] [900, 1900] [3, 1] := by
    refine ⟨by decide, by decide, by decide, ?_⟩
    intro i hi
    have h0 : i = 0 := by simp at hi; omega
    subst h0
    decide
  exact ⟨hwf, hinv, by decide,
    classify_families_independent "1" chrFull2000 [0, 1000] [900, 1900] [3, 1]
      (mkRat 4 5) "1q" "HETLOSS" hwf hinv (by decide)⟩
